import Mathlib

/-!
Slicer: tile-grid mesh builder, reverse index buffer, camera state and argument parsing.

A shallow embedding of `Slicer/Source.cpp`:

* `ToInt`                 the decimal parser used for `-slice_width` / `-slice_height`;
* `MakeSliceGeometry`     the three nested loops that fill the UV and index buffers;
* `reverseIndices`        the reverse-iterator loop of `Run` that builds `reverse_indices`;
* `CamState`, `camStep`   the camera variables of `Run` and the callbacks / spin tick that
                          mutate them.

Conventions.  `int` is a 32-bit two's-complement integer (`wrapInt`), `unsigned` is reduction
modulo `2^32` (`toUnsigned`, `uadd`), the index type `T` is an unsigned integer of 1, 2 or 4
bytes (`IndexType`).  A `float` is an IEEE-754 binary32 number: a finite value is kept as the
rational it denotes, and every conversion to `float` and every `float` operation rounds its
exact result to the nearest binary32 value, a tie going to the even significand (`roundF32`).
A `std::vector` is a `List`; its size is the length of the list.
-/

namespace Slicer

/-! ## Machine integers -/

/-- The value of a mathematical integer after conversion to a 32-bit two's-complement `int`. -/
def wrapInt (n : Int) : Int := (n + 2 ^ 31) % 2 ^ 32 - 2 ^ 31

/-- Conversion of an `int` to `unsigned`: reduction modulo `2^32`. -/
def toUnsigned (n : Int) : Nat := (n % 2 ^ 32).toNat

/-- Addition of two `unsigned` values. -/
def uadd (a b : Nat) : Nat := (a + b) % 2 ^ 32

/-- Increment of a `size_t` counter. -/
def sizeInc (n : Nat) : Nat := (n + 1) % 2 ^ 64

/-! ## `ToInt` -/

/-- The loop of `ToInt(str, out)`, entered with the current `i`: `none` when it leaves with
`return false`, `some i` when it runs to the end of the string.  `_i` is the value of `i` at
the start of the iteration; a character is compared with `'0'` and `'9'` by its code (a
byte outside ASCII fails the digit test like any other non-digit). -/
def ToInt.loop : List Char → Int → Option Int
  | [], i => some i
  | c :: rest, i =>
    let _i := i
    if c.toNat < '0'.toNat ∨ c.toNat > '9'.toNat then none
    else
      let i := wrapInt (i * 10)
      let i := wrapInt (i + ((c.toNat : Int) - ('0'.toNat : Int)))
      if i < _i then none -- Check overflow
      else ToInt.loop rest i

/-- The function `ToInt(str, out)`: the pair is the return value and the value of `out` after
the call, `(false, out)` when the loop leaves early and `(true, i)` after `out = i`. -/
def ToInt (str : List Char) (out : Int) : Bool × Int :=
  match ToInt.loop str 0 with
  | none => (false, out)
  | some i => (true, i)

/-- The number a string of decimal digits denotes (the empty string denotes 0). -/
def decimalValue (str : List Char) : Nat :=
  str.foldl (fun acc c => 10 * acc + (c.toNat - '0'.toNat)) 0

/-- Every character is one of `'0'` .. `'9'`. -/
def allDigits (str : List Char) : Bool :=
  str.all (fun c => decide ('0'.toNat ≤ c.toNat ∧ c.toNat ≤ '9'.toNat))

/-! ## binary32 -/

/-- Nearest integer to a rational, a tie going to the even neighbour. -/
def roundHalfEven (q : ℚ) : Int :=
  let f := ⌊q⌋
  if q - f < 1 / 2 then f
  else if 1 / 2 < q - f then f + 1
  else if f % 2 = 0 then f else f + 1

/-- Search for the binary exponent of `a * 2^e`, `a > 0`: halve while `a >= 2`, double while
`a < 1`, and stop at the least exponent `-126` of binary32 (below it values are subnormal).
Each step moves `a` one binade closer to `[1, 2)`. -/
def exponentLoop : Nat → ℚ → Int → Int
  | 0, _, e => e
  | fuel + 1, a, e =>
    if 2 ≤ a then exponentLoop fuel (a / 2) (e + 1)
    else if a < 1 ∧ -126 < e then exponentLoop fuel (a * 2) (e - 1)
    else e

/-- The binade of a positive rational `a`: the `e >= -126` with `2^e <= a < 2^(e+1)`, or
`-126` for smaller `a`.  The number of steps is at most the bit length of the numerator or
of the denominator, so numerator plus denominator is enough fuel. -/
def binaryExponent (a : ℚ) : Int := exponentLoop (a.num.natAbs + a.den) a 0

/-- The rational `2^e` for an integer `e`. -/
def pow2 (e : Int) : ℚ := if 0 ≤ e then 2 ^ e.toNat else 1 / 2 ^ (-e).toNat

/-- Rounding of an exact result to binary32, to nearest with ties to even: the significand
has 24 bits, so values in the binade `e` are spaced `2^(e - 23)` apart.  Overflow to infinity
(results from `2^128` on) is not represented: every value that arises here is far below it,
since integers are below `2^32` in magnitude, UV quotients are about 1 or less, and a camera
angle moves by at most `0.0025 * 2^31` before it is wrapped. -/
def roundF32 (q : ℚ) : ℚ :=
  if q = 0 then 0
  else
    let ulp := pow2 (binaryExponent |q| - 23)
    let r := roundHalfEven (|q| / ulp)
    if q < 0 then -((r : ℚ) * ulp) else (r : ℚ) * ulp

/-- Conversion of an integer to `float`, as in `(float)x` and in the promotion of an `int`
operand of a `float` operation. -/
def F32.ofInt (n : Int) : ℚ := roundF32 (n : ℚ)

/-- Sum of two `float` values. -/
def F32.add (a b : ℚ) : ℚ := roundF32 (a + b)

/-- Difference of two `float` values. -/
def F32.sub (a b : ℚ) : ℚ := roundF32 (a - b)

/-- Product of two `float` values. -/
def F32.mul (a b : ℚ) : ℚ := roundF32 (a * b)

/-- Quotient of two `float` values, the divisor not zero. -/
def F32.div (a b : ℚ) : ℚ := roundF32 (a / b)

/-! ## Points -/

/-- The type `SDL::Point`: two `int` coordinates, read as `w`/`h` by the slicer. -/
structure Point where
  w : Int
  h : Int
deriving DecidableEq

/-- The type `SDL::FPoint`: two `float` coordinates, each the rational its binary32 value
denotes. -/
structure FPoint where
  x : ℚ
  y : ℚ
deriving DecidableEq

/-- Modelled from the spec: `FPoint / Point` of the SDL wrapper header, which is not part of
this repository's sources; the spec describes it as component-wise division by the image
size.  Each `int` coordinate is converted to `float` and the division is a `float`
division. -/
def FPoint.divPoint (p : FPoint) (q : Point) : FPoint :=
  ⟨F32.div p.x (F32.ofInt q.w), F32.div p.y (F32.ofInt q.h)⟩

/-- Modelled from the spec: `FPoint * Point` of the SDL wrapper header, which is not part of
this repository's sources; the drag transition is described component-wise (the pitch moves by
`0.01 * yrel`, the yaw by `-0.0025 * xrel`).  Each `int` coordinate is converted to `float`
and the product is a `float` product. -/
def FPoint.mulPoint (p : FPoint) (q : Point) : FPoint :=
  ⟨F32.mul p.x (F32.ofInt q.w), F32.mul p.y (F32.ofInt q.h)⟩

/-- Modelled from the spec: `FPoint + FPoint` (and `+=`) of the SDL wrapper header, which is
not part of this repository's sources: the component-wise `float` sum. -/
def FPoint.add (p q : FPoint) : FPoint := ⟨F32.add p.x q.x, F32.add p.y q.y⟩

/-! ## `MakeSliceGeometry` -/

/-- The index type `T` of the template: `sizeof(T)` is 1, 2 or 4. -/
inductive IndexType where
  | u8
  | u16
  | u32
deriving DecidableEq

/-- Value of `sizeof(T)`. -/
def IndexType.sizeof : IndexType → Nat
  | .u8 => 1
  | .u16 => 2
  | .u32 => 4

/-- Number of values of `T`: `2^(8 * sizeof T)`. -/
def IndexType.modulus (T : IndexType) : Nat := 2 ^ (8 * T.sizeof)

/-- The cast `(T)n`. -/
def IndexType.cast (T : IndexType) (n : Nat) : Nat := n % T.modulus

/-- The variables `MakeSliceGeometry` writes: the four by-reference arguments and the local
counter `slices`, whose final value is the value returned.  `slices` counts the quads pushed
so far, so `uvs.size() = 4 * slices` throughout; `uvs.size()` is itself a `size_t`, so the
counter never wraps in a run that holds the vector in memory, and it is kept as a natural
number like the vector lengths.  `z_height` is incremented without a matching push and is
reduced modulo `2^64` (`sizeInc`). -/
structure Geometry where
  z_height : Nat
  verts : List FPoint
  uvs : List FPoint
  indices : List Nat
  slices : Nat
deriving DecidableEq

/-- The four UV corners pushed by one pass of the `copy` loop (lines 79-82) for the cell
whose origin is `(x, y)`: `(float)x` and `(float)y` are conversions, `(float)x + slice_size.w`
converts the `int` and adds in `float`, and `/ image_size` divides in `float`. -/
def quadUVs (slice_size image_size : Point) (x y : Nat) : List FPoint :=
  let fx := F32.ofInt (x : Int)
  let fy := F32.ofInt (y : Int)
  [ FPoint.divPoint ⟨fx, fy⟩ image_size,
    FPoint.divPoint ⟨F32.add fx (F32.ofInt slice_size.w), fy⟩ image_size,
    FPoint.divPoint ⟨fx, F32.add fy (F32.ofInt slice_size.h)⟩ image_size,
    FPoint.divPoint ⟨F32.add fx (F32.ofInt slice_size.w), F32.add fy (F32.ofInt slice_size.h)⟩
      image_size ]

/-- The six indices pushed by one pass of the `copy` loop (lines 77, 85-92) when `uvs.size()`
is `size`: `i = (T)size`, and every `i + c` is converted to `T` when it is pushed. -/
def quadIndices (T : IndexType) (size : Nat) : List Nat :=
  let i := T.cast size
  [ i, T.cast (i + 1), T.cast (i + 2), T.cast (i + 1), T.cast (i + 2), T.cast (i + 3) ]

/-- Body of the `copy` loop (lines 77-94): four UV corners, six indices, `slices++`. -/
def pushQuad (T : IndexType) (slice_size image_size : Point) (x y : Nat) (g : Geometry) :
    Geometry :=
  { g with
    uvs := g.uvs ++ quadUVs slice_size image_size x y
    indices := g.indices ++ quadIndices T g.uvs.length
    slices := g.slices + 1 }

/-- The loop `for (size_t copy = slice_copies; copy--; )`: the argument is the value of `copy`
when the condition is tested. -/
def copyLoop (T : IndexType) (slice_size image_size : Point) (x y : Nat) :
    Nat → Geometry → Geometry
  | 0, g => g
  | copy + 1, g => copyLoop T slice_size image_size x y copy (pushQuad T slice_size image_size x y g)

/-- The loop `for (unsigned x = 0; x + slice_size.w <= image_width; x += slice_size.w)`,
entered with the current `x`.  `none` when the fuel runs out before the loop exits. -/
def xLoop (T : IndexType) (slice_copies : Nat) (slice_size image_size : Point) (y : Nat) :
    Nat → Nat → Geometry → Option Geometry
  | 0, _, _ => none
  | fuel + 1, x, g =>
    if uadd x (toUnsigned slice_size.w) ≤ toUnsigned image_size.w then
      let g1 := copyLoop T slice_size image_size x y slice_copies g
      xLoop T slice_copies slice_size image_size y fuel (uadd x (toUnsigned slice_size.w))
        { g1 with z_height := sizeInc g1.z_height }
    else some g

/-- The loop `for (unsigned y = 0; y + slice_size.h <= image_height; y += slice_size.h)`,
entered with the current `y`.  `none` when the fuel runs out before the loop exits. -/
def yLoop (T : IndexType) (slice_copies : Nat) (slice_size image_size : Point) :
    Nat → Nat → Geometry → Option Geometry
  | 0, _, _ => none
  | fuel + 1, y, g =>
    if uadd y (toUnsigned slice_size.h) ≤ toUnsigned image_size.h then
      match xLoop T slice_copies slice_size image_size y (toUnsigned image_size.w + 1) 0 g with
      | none => none
      | some g1 => yLoop T slice_copies slice_size image_size fuel (uadd y (toUnsigned slice_size.h)) g1
    else some g

/-- The call `v.resize(n)` on a vector whose new elements are default-constructed as `dflt`. -/
def resize {α : Type} (v : List α) (n : Nat) (dflt : α) : List α :=
  v.take n ++ List.replicate (n - v.length) dflt

/-- The call `v.clear()`. -/
def clear {α : Type} (_v : List α) : List α := []

/-- The function
`MakeSliceGeometry<T>(slice_copies, slice_size, image_size, z_height, verts, uvs, indices)`.
The last four arguments are the by-reference arguments as they are before the call and `dflt`
is the default-constructed `FPoint` that `resize` inserts.  The result holds the four
by-reference arguments after the call and, in `slices`, the returned count; it is `none` only
if a loop does not exit within its fuel (one more than the image extent). -/
def MakeSliceGeometry (T : IndexType) (slice_copies : Nat) (slice_size image_size : Point)
    (dflt : FPoint) (_z_height : Nat) (verts uvs : List FPoint) (indices : List Nat) :
    Option Geometry :=
  let g0 : Geometry :=
    { z_height := 0, verts := clear verts, uvs := clear uvs, indices := clear indices,
      slices := 0 }
  if slice_size.w ≤ 0 ∨ slice_size.h ≤ 0 ∨ image_size.w ≤ 0 ∨ image_size.h ≤ 0 then
    some g0
  else
    match yLoop T slice_copies slice_size image_size (toUnsigned image_size.h + 1) 0 g0 with
    | none => none
    | some g => some { g with verts := resize g.verts g.uvs.length dflt }

/-! ## `Run`: the reverse index buffer -/

/-- The loop `for (auto it = indices.rbegin(); it != indices.rend(); it++)`.  The first
argument is the position of the reverse iterator's base: `rbegin()` has base `size()`,
`rend()` has base `0`, `*it` is the element just before the base and `it++` moves the base
one element down.  The base never exceeds `size()`, so the element read always exists. -/
def reverseLoop (indices : List Nat) : Nat → List Nat → List Nat
  | 0, reverse_indices => reverse_indices
  | base + 1, reverse_indices =>
    reverseLoop indices base (reverse_indices ++ (indices[base]?).toList)

/-- The vector `reverse_indices` of `Run` after its loop. -/
def reverseIndices (indices : List Nat) : List Nat :=
  reverseLoop indices indices.length []

/-! ## `Run`: the camera -/

/-- The camera variables of `Run`: `cam_angle` (`x` is the pitch, `y` the yaw), `zoom` and
`spin`. -/
structure CamState where
  cam_angle : FPoint
  zoom : Int
  spin : Bool
deriving DecidableEq

/-- The camera as `Run` initialises it: `cam_angle(0.2f, 0.25f)`, `spin = true`, `zoom = 0`;
a literal such as `0.2f` is the binary32 value nearest to the decimal. -/
def CamState.init : CamState :=
  { cam_angle := ⟨roundF32 (2 / 10), roundF32 (25 / 100)⟩, zoom := 0, spin := true }

/-- The constant `mouse_sensitivity(0.01f, -0.0025f)`. -/
def mouse_sensitivity : FPoint := ⟨roundF32 (1 / 100), -roundF32 (25 / 10000)⟩

/-- The function `std::clamp(v, lo, hi)`. -/
def clamp {α : Type} [LT α] [DecidableRel (fun a b : α => a < b)] (v lo hi : α) : α :=
  if v < lo then lo else if hi < v then hi else v

/-- What reaches the camera during the frame loop.  The booleans are the outcomes of the
guards at the head of a callback: the key is the space bar, the event is for this window,
the left button is held. -/
inductive CamEvent where
  | keyDown (isSpace : Bool)
  | mouseMotion (thisWindow leftButton : Bool) (xrel yrel : Int)
  | mouseWheel (thisWindow : Bool) (y : Int)
  | spinTick

/-- The callback `toggle_spin`. -/
def toggle_spin (isSpace : Bool) (s : CamState) : CamState :=
  if !isSpace then s else { s with spin := !s.spin }

/-- The callback `move_camera`: the two guards, then
`cam_angle += mouse_sensitivity * Point(yrel, spin ? 0 : xrel)`, the clamp of `cam_angle.x`
and `cam_angle.y -= floor(cam_angle.y)`.  The floor of a `float` is an integer and exact; the
subtraction is a `float` subtraction. -/
def move_camera (thisWindow leftButton : Bool) (xrel yrel : Int) (s : CamState) : CamState :=
  if !thisWindow then s
  else if !leftButton then s
  else
    let a : FPoint :=
      s.cam_angle.add (mouse_sensitivity.mulPoint ⟨yrel, if s.spin then 0 else xrel⟩)
    let a : FPoint := ⟨clamp a.x (-1) 1, a.y⟩
    let a : FPoint := ⟨a.x, F32.sub a.y (⌊a.y⌋ : ℚ)⟩
    { s with cam_angle := a }

/-- The callback `zoom_camera`; the sum is an `int`. -/
def zoom_camera (thisWindow : Bool) (y : Int) (s : CamState) : CamState :=
  if !thisWindow then s else { s with zoom := clamp (wrapInt (s.zoom + y)) (-10) 10 }

/-- The head of the frame loop body (lines 244-249): `cam_angle.y += 0.016f / 4.f`, then
`if (cam_angle.y >= 1) cam_angle.y -= 1.f`. -/
def spin_tick (s : CamState) : CamState :=
  if s.spin then
    let y := F32.add s.cam_angle.y (F32.div (roundF32 (16 / 1000)) (roundF32 4))
    let y := if y ≥ 1 then F32.sub y 1 else y
    { s with cam_angle := ⟨s.cam_angle.x, y⟩ }
  else s

/-- One transition of the camera. -/
def camStep (s : CamState) : CamEvent → CamState
  | .keyDown isSpace => toggle_spin isSpace s
  | .mouseMotion thisWindow leftButton xrel yrel => move_camera thisWindow leftButton xrel yrel s
  | .mouseWheel thisWindow y => zoom_camera thisWindow y s
  | .spinTick => spin_tick s

/-- The camera after a sequence of transitions from `s`. -/
def camRun (s : CamState) (events : List CamEvent) : CamState := events.foldl camStep s

/-- The camera invariant: pitch in `[-1,1]`, yaw in `[0,1)`, zoom in `[-10,10]`. -/
def CamInv (s : CamState) : Prop :=
  (-1 ≤ s.cam_angle.x ∧ s.cam_angle.x ≤ 1) ∧ (0 ≤ s.cam_angle.y ∧ s.cam_angle.y < 1) ∧
    (-10 ≤ s.zoom ∧ s.zoom ≤ 10)

instance (s : CamState) : Decidable (CamInv s) := by unfold CamInv; infer_instance

/-- The camera invariant with the yaw range closed at 1: pitch in `[-1,1]`, yaw in `[0,1]`,
zoom in `[-10,10]`. -/
def CamInvClosed (s : CamState) : Prop :=
  (-1 ≤ s.cam_angle.x ∧ s.cam_angle.x ≤ 1) ∧ (0 ≤ s.cam_angle.y ∧ s.cam_angle.y ≤ 1) ∧
    (-10 ≤ s.zoom ∧ s.zoom ≤ 10)

instance (s : CamState) : Decidable (CamInvClosed s) := by unfold CamInvClosed; infer_instance

/-! ## Closed forms used to state the results -/

/-- Both coordinates of a point are values of a 32-bit `int`. -/
def Point.InRange (p : Point) : Prop :=
  (-2 ^ 31 ≤ p.w ∧ p.w < 2 ^ 31) ∧ (-2 ^ 31 ≤ p.h ∧ p.h < 2 ^ 31)

instance (p : Point) : Decidable p.InRange := by unfold Point.InRange; infer_instance

/-- UV corners of the `k`-th quad in emission order, for `cols` grid columns and `d` copies
per cell: its cell is `k / d`, at column `k / d % cols` and row `k / d / cols`. -/
def tileUVs (slice_size image_size : Point) (cols d k : Nat) : List FPoint :=
  quadUVs slice_size image_size (k / d % cols * slice_size.w.toNat)
    (k / d / cols * slice_size.h.toNat)

/-- The state `g` after `n` further quads, numbered from `g.slices`, with UV corners given by
`uv`, and after `zs` further increments of `z_height`. -/
def appendTiles (T : IndexType) (uv : Nat → List FPoint) (g : Geometry) (n zs : Nat) :
    Geometry :=
  { z_height := sizeInc^[zs] g.z_height
    verts := g.verts
    uvs := g.uvs ++ (List.range' g.slices n).flatMap uv
    indices := g.indices ++ (List.range' g.slices n).flatMap (fun k => quadIndices T (4 * k))
    slices := g.slices + n }

/-- The mesh `MakeSliceGeometry` builds from positive dimensions, in closed form: `rows * cols`
cells, `d` quads per cell, numbered in emission order. -/
def meshOf (T : IndexType) (d : Nat) (slice_size image_size : Point) (dflt : FPoint) :
    Geometry :=
  let cols := image_size.w.toNat / slice_size.w.toNat
  let rows := image_size.h.toNat / slice_size.h.toNat
  { z_height := rows * cols
    verts := List.replicate (4 * (rows * cols * d)) dflt
    uvs := (List.range' 0 (rows * cols * d)).flatMap (tileUVs slice_size image_size cols d)
    indices := (List.range' 0 (rows * cols * d)).flatMap (fun k => quadIndices T (4 * k))
    slices := rows * cols * d }

/-- The empty mesh that `MakeSliceGeometry` leaves behind for degenerate dimensions. -/
def emptyMesh : Geometry :=
  { z_height := 0, verts := [], uvs := [], indices := [], slices := 0 }

/-- A positive value of a 32-bit `int`, as a natural number. -/
def PosInt32 (n : Nat) : Prop := 0 < n ∧ n < 2 ^ 31

instance (n : Nat) : Decidable (PosInt32 n) := by unfold PosInt32; infer_instance

/-- Left edge of the grid cell of the `k`-th quad: with `c = k / d` its cell in row-major
order and `cols = W / tw`, this is `(c mod cols) * tw`. -/
def gridX (tw W d k : Nat) : Nat := k / d % (W / tw) * tw

/-- Top edge of the grid cell of the `k`-th quad: `(c div cols) * th` for `c = k / d`. -/
def gridY (tw th W d k : Nat) : Nat := k / d / (W / tw) * th

/-! ## Lists of fixed-size chunks -/

theorem flatMap_congr_mem {α β : Type} (l : List α) (f g : α → List β)
    (h : ∀ a ∈ l, f a = g a) : l.flatMap f = l.flatMap g := by
  induction l with
  | nil => rfl
  | cons a l ih =>
    simp only [List.flatMap_cons]
    rw [h a (List.mem_cons_self a l), ih (fun b hb => h b (List.mem_cons_of_mem a hb))]

theorem length_flatMap_const {α β : Type} (l : List α) (f : α → List β) (c : Nat)
    (h : ∀ a, (f a).length = c) : (l.flatMap f).length = c * l.length := by
  induction l with
  | nil => simp
  | cons a l ih =>
    simp only [List.flatMap_cons, List.length_append, List.length_cons, h a, ih]
    ring

theorem getElem?_flatMap_range' {β : Type} (f : Nat → List β) (c : Nat)
    (h : ∀ a, (f a).length = c) :
    ∀ (n s k j : Nat), k < n → j < c →
      ((List.range' s n).flatMap f)[c * k + j]? = (f (s + k))[j]? := by
  intro n
  induction n with
  | zero => intro s k j hk; omega
  | succ n ih =>
    intro s k j hk hj
    rw [List.range'_succ, List.flatMap_cons]
    cases k with
    | zero =>
      rw [List.getElem?_append_left (by rw [h s]; omega)]
      simp
    | succ k =>
      rw [List.getElem?_append_right (by rw [h s]; nlinarith)]
      have e : c * (k + 1) + j - (f s).length = c * k + j := by
        rw [h s, Nat.mul_succ]; omega
      rw [e, ih (s + 1) k j (by omega) hj]
      congr 2
      omega

theorem mem_flatMap_range' {β : Type} (f : Nat → List β) (s n : Nat) (b : β)
    (h : b ∈ (List.range' s n).flatMap f) : ∃ k, s ≤ k ∧ k < s + n ∧ b ∈ f k := by
  rw [List.mem_flatMap] at h
  obtain ⟨k, hk, hb⟩ := h
  rw [List.mem_range'_1] at hk
  exact ⟨k, hk.1, hk.2, hb⟩

/-! ## Machine arithmetic in range -/

theorem toUnsigned_natCast (n : Nat) (h : n < 2 ^ 32) : toUnsigned (n : Int) = n := by
  unfold toUnsigned
  have e : ((n : Int) % 2 ^ 32) = (n : Int) :=
    Int.emod_eq_of_lt (Int.natCast_nonneg n) (by exact_mod_cast h)
  rw [e]
  exact Int.toNat_natCast n

theorem uadd_eq (a b : Nat) (h : a + b < 2 ^ 32) : uadd a b = a + b := by
  unfold uadd
  exact Nat.mod_eq_of_lt h

theorem sizeInc_iterate_zero (n : Nat) : sizeInc^[n] 0 = n % 2 ^ 64 := by
  induction n with
  | zero => rfl
  | succ n ih =>
    rw [Function.iterate_succ_apply', ih]
    unfold sizeInc
    exact Nat.mod_add_mod n (2 ^ 64) 1

/-! ## `appendTiles` -/

theorem appendTiles_zero (T : IndexType) (uv : Nat → List FPoint) (g : Geometry) :
    appendTiles T uv g 0 0 = g := by
  simp [appendTiles]

theorem appendTiles_appendTiles (T : IndexType) (uv : Nat → List FPoint) (g : Geometry)
    (n m zs zt : Nat) :
    appendTiles T uv (appendTiles T uv g n zs) m zt = appendTiles T uv g (n + m) (zs + zt) := by
  have e : List.range' g.slices (n + m) =
      List.range' g.slices n ++ List.range' (g.slices + n) m := by
    have := List.range'_append g.slices n m 1
    rw [Nat.one_mul] at this
    rw [this, Nat.add_comm m n]
  simp only [appendTiles, e, List.flatMap_append, List.append_assoc, Nat.add_assoc]
  rw [Nat.add_comm zs zt, Function.iterate_add_apply]

theorem appendTiles_uvs_length (T : IndexType) (uv : Nat → List FPoint)
    (huv : ∀ k, (uv k).length = 4) (g : Geometry) (n zs : Nat)
    (hg : g.uvs.length = 4 * g.slices) :
    (appendTiles T uv g n zs).uvs.length = 4 * (appendTiles T uv g n zs).slices := by
  simp only [appendTiles, List.length_append, length_flatMap_const _ uv 4 huv,
    List.length_range', hg]
  ring

theorem quadUVs_length (ss is : Point) (x y : Nat) : (quadUVs ss is x y).length = 4 := rfl

theorem quadIndices_length (T : IndexType) (n : Nat) : (quadIndices T n).length = 6 := rfl

theorem tileUVs_length (ss is : Point) (cols d k : Nat) : (tileUVs ss is cols d k).length = 4 :=
  rfl

/-! ## The three loops -/

theorem pushQuad_eq (T : IndexType) (ss is : Point) (x y : Nat) (uv : Nat → List FPoint)
    (g : Geometry) (hg : g.uvs.length = 4 * g.slices) (huv : uv g.slices = quadUVs ss is x y) :
    pushQuad T ss is x y g = appendTiles T uv g 1 0 := by
  simp [pushQuad, appendTiles, hg, huv]

theorem copyLoop_eq (T : IndexType) (ss is : Point) (x y : Nat) (uv : Nat → List FPoint)
    (huv : ∀ k, (uv k).length = 4) :
    ∀ (copy : Nat) (g : Geometry), g.uvs.length = 4 * g.slices →
      (∀ k, g.slices ≤ k → k < g.slices + copy → uv k = quadUVs ss is x y) →
      copyLoop T ss is x y copy g = appendTiles T uv g copy 0 := by
  intro copy
  induction copy with
  | zero => intro g _ _; rw [appendTiles_zero]; rfl
  | succ copy ih =>
    intro g hg hk
    have h1 := pushQuad_eq T ss is x y uv g hg (hk g.slices (le_refl _) (by omega))
    have hs : (appendTiles T uv g 1 0).slices = g.slices + 1 := rfl
    rw [copyLoop, h1, ih _ (appendTiles_uvs_length T uv huv g 1 0 hg)
      (fun k h2 h3 => hk k (by rw [hs] at h2; omega) (by rw [hs] at h3; omega)),
      appendTiles_appendTiles, Nat.add_comm 1 copy]

theorem div_mul_le_self_and_lt (W tw : Nat) (htw : 0 < tw) :
    W / tw * tw ≤ W ∧ W < W / tw * tw + tw := by
  have h1 := Nat.div_add_mod W tw
  have h2 := Nat.mod_lt W htw
  have h3 : tw * (W / tw) = W / tw * tw := Nat.mul_comm _ _
  omega

theorem cell_div_mod (r cols q d k : Nat) (hq : q < cols)
    (h1 : (r * cols + q) * d ≤ k) (h2 : k < (r * cols + q) * d + d) :
    k / d % cols = q ∧ k / d / cols = r := by
  have e : k / d = r * cols + q :=
    Nat.div_eq_of_lt_le h1 (by rw [Nat.succ_mul]; exact h2)
  rw [e]
  constructor
  · rw [Nat.add_comm, Nat.add_mul_mod_self_right]
    exact Nat.mod_eq_of_lt hq
  · exact Nat.div_eq_of_lt_le (by omega) (by rw [Nat.succ_mul]; omega)

theorem xLoop_eq (T : IndexType) (d tw th W H : Nat) (htw : 0 < tw) (hW : W < 2 ^ 31)
    (htw2 : tw < 2 ^ 31) (r : Nat) :
    ∀ (fuel q : Nat) (g : Geometry), q ≤ W / tw → W / tw - q < fuel →
      g.uvs.length = 4 * g.slices → g.slices = (r * (W / tw) + q) * d →
      xLoop T d ⟨(tw : Int), (th : Int)⟩ ⟨(W : Int), (H : Int)⟩ (r * th) fuel (q * tw) g =
        some (appendTiles T (tileUVs ⟨(tw : Int), (th : Int)⟩ ⟨(W : Int), (H : Int)⟩ (W / tw) d)
          g ((W / tw - q) * d) (W / tw - q)) := by
  intro fuel
  induction fuel with
  | zero => intro q g _ h; omega
  | succ fuel ih =>
    intro q g hq hf hg hs
    obtain ⟨hc1, hc2⟩ := div_mul_le_self_and_lt W tw htw
    have hqW : q * tw ≤ W / tw * tw := Nat.mul_le_mul_right tw hq
    have hu : uadd (q * tw) tw = (q + 1) * tw := by
      rw [uadd_eq _ _ (by omega), Nat.succ_mul]
    rw [xLoop]
    simp only [toUnsigned_natCast tw (by omega), toUnsigned_natCast W (by omega), hu]
    by_cases hlt : q < W / tw
    · have hle : (q + 1) * tw ≤ W :=
        le_trans (Nat.mul_le_mul_right tw (Nat.succ_le_of_lt hlt)) hc1
      rw [if_pos hle]
      have hcopy := copyLoop_eq T ⟨(tw : Int), (th : Int)⟩ ⟨(W : Int), (H : Int)⟩ (q * tw)
        (r * th) (tileUVs ⟨(tw : Int), (th : Int)⟩ ⟨(W : Int), (H : Int)⟩ (W / tw) d)
        (tileUVs_length _ _ _ _) d g hg (by
          intro k h1 h2
          rw [hs] at h1 h2
          obtain ⟨e1, e2⟩ := cell_div_mod r (W / tw) q d k hlt h1 h2
          simp only [tileUVs, e1, e2, Int.toNat_natCast])
      simp only [hcopy]
      have hstep : ({ appendTiles T (tileUVs ⟨(tw : Int), (th : Int)⟩ ⟨(W : Int), (H : Int)⟩
            (W / tw) d) g d 0 with
          z_height := sizeInc (appendTiles T (tileUVs ⟨(tw : Int), (th : Int)⟩
            ⟨(W : Int), (H : Int)⟩ (W / tw) d) g d 0).z_height } : Geometry) =
          appendTiles T (tileUVs ⟨(tw : Int), (th : Int)⟩ ⟨(W : Int), (H : Int)⟩ (W / tw) d)
            g d 1 := rfl
      rw [hstep, ih (q + 1) _ (Nat.succ_le_of_lt hlt) (by omega)
        (appendTiles_uvs_length T _ (tileUVs_length _ _ _ _) g d 1 hg)
        (by show g.slices + d = _; rw [hs]; ring),
        appendTiles_appendTiles]
      have e1 : d + (W / tw - (q + 1)) * d = (W / tw - q) * d := by
        have : W / tw - q = (W / tw - (q + 1)) + 1 := by omega
        rw [this, Nat.succ_mul, Nat.add_comm]
      have e2 : 1 + (W / tw - (q + 1)) = W / tw - q := by omega
      rw [e1, e2]
    · have hqe : q = W / tw := by omega
      have hgt : ¬ (q + 1) * tw ≤ W := by
        rw [hqe, Nat.succ_mul]; omega
      rw [if_neg hgt, hqe, Nat.sub_self, Nat.zero_mul, appendTiles_zero]

theorem yLoop_eq (T : IndexType) (d tw th W H : Nat) (htw : 0 < tw) (hth : 0 < th)
    (hW : W < 2 ^ 31) (hH : H < 2 ^ 31) (htw2 : tw < 2 ^ 31) (hth2 : th < 2 ^ 31) :
    ∀ (fuel r : Nat) (g : Geometry), r ≤ H / th → H / th - r < fuel →
      g.uvs.length = 4 * g.slices → g.slices = r * (W / tw) * d →
      yLoop T d ⟨(tw : Int), (th : Int)⟩ ⟨(W : Int), (H : Int)⟩ fuel (r * th) g =
        some (appendTiles T (tileUVs ⟨(tw : Int), (th : Int)⟩ ⟨(W : Int), (H : Int)⟩ (W / tw) d)
          g ((H / th - r) * (W / tw) * d) ((H / th - r) * (W / tw))) := by
  intro fuel
  induction fuel with
  | zero => intro r g _ h; omega
  | succ fuel ih =>
    intro r g hr hf hg hs
    obtain ⟨hc1, hc2⟩ := div_mul_le_self_and_lt H th hth
    have hrH : r * th ≤ H / th * th := Nat.mul_le_mul_right th hr
    have hu : uadd (r * th) th = (r + 1) * th := by
      rw [uadd_eq _ _ (by omega), Nat.succ_mul]
    rw [yLoop]
    simp only [toUnsigned_natCast th (by omega), toUnsigned_natCast H (by omega),
      toUnsigned_natCast W (by omega), hu]
    by_cases hlt : r < H / th
    · have hle : (r + 1) * th ≤ H :=
        le_trans (Nat.mul_le_mul_right th (Nat.succ_le_of_lt hlt)) hc1
      rw [if_pos hle]
      have hx := xLoop_eq T d tw th W H htw hW htw2 r (W + 1) 0 g (Nat.zero_le _)
        (by have := Nat.div_le_self W tw; omega) hg (by rw [hs, Nat.add_zero])
      rw [Nat.zero_mul, Nat.sub_zero] at hx
      rw [hx]
      simp only []
      rw [ih (r + 1) _ (Nat.succ_le_of_lt hlt) (by omega)
        (appendTiles_uvs_length T _ (tileUVs_length _ _ _ _) g _ _ hg)
        (by show g.slices + W / tw * d = _; rw [hs]; ring),
        appendTiles_appendTiles]
      have e : H / th - r = (H / th - (r + 1)) + 1 := by omega
      have e1 : W / tw * d + (H / th - (r + 1)) * (W / tw) * d = (H / th - r) * (W / tw) * d := by
        rw [e]; ring
      have e2 : W / tw + (H / th - (r + 1)) * (W / tw) = (H / th - r) * (W / tw) := by
        rw [e]; ring
      rw [e1, e2]
    · have hre : r = H / th := by omega
      have hgt : ¬ (r + 1) * th ≤ H := by
        rw [hre, Nat.succ_mul]; omega
      rw [if_neg hgt, hre, Nat.sub_self, Nat.zero_mul, Nat.zero_mul, appendTiles_zero]

/-! ## `MakeSliceGeometry` in closed form -/

theorem MakeSliceGeometry_nat (T : IndexType) (d tw th W H : Nat) (htw : 0 < tw) (hth : 0 < th)
    (hW0 : 0 < W) (hH0 : 0 < H) (hW : W < 2 ^ 31) (hH : H < 2 ^ 31) (htw2 : tw < 2 ^ 31)
    (hth2 : th < 2 ^ 31) (dflt : FPoint) (z : Nat) (v u : List FPoint) (i : List Nat) :
    MakeSliceGeometry T d ⟨(tw : Int), (th : Int)⟩ ⟨(W : Int), (H : Int)⟩ dflt z v u i =
      some (meshOf T d ⟨(tw : Int), (th : Int)⟩ ⟨(W : Int), (H : Int)⟩ dflt) := by
  have hcond : ¬ ((tw : Int) ≤ 0 ∨ (th : Int) ≤ 0 ∨ (W : Int) ≤ 0 ∨ (H : Int) ≤ 0) := by
    omega
  have hy := yLoop_eq T d tw th W H htw hth hW hH htw2 hth2 (H + 1) 0 emptyMesh
    (Nat.zero_le _) (by have := Nat.div_le_self H th; omega) rfl (by simp [emptyMesh])
  rw [Nat.zero_mul, Nat.sub_zero] at hy
  have hz : (H / th * (W / tw)) % 2 ^ 64 = H / th * (W / tw) := by
    apply Nat.mod_eq_of_lt
    have h1 : H / th ≤ 2 ^ 31 := le_trans (Nat.div_le_self H th) (le_of_lt hH)
    have h2 : W / tw ≤ 2 ^ 31 := le_trans (Nat.div_le_self W tw) (le_of_lt hW)
    calc H / th * (W / tw) ≤ 2 ^ 31 * 2 ^ 31 := Nat.mul_le_mul h1 h2
      _ < 2 ^ 64 := by norm_num
  unfold MakeSliceGeometry
  simp only [if_neg hcond, toUnsigned_natCast H (by omega), clear]
  have hy2 : yLoop T d ⟨(tw : Int), (th : Int)⟩ ⟨(W : Int), (H : Int)⟩ (H + 1) 0
      { z_height := 0, verts := [], uvs := [], indices := [], slices := 0 } = _ := hy
  rw [hy2]
  simp only [appendTiles, emptyMesh, meshOf, resize, sizeInc_iterate_zero, hz,
    Int.toNat_natCast, List.nil_append, List.take_nil, List.length_nil, Nat.sub_zero,
    length_flatMap_const _ _ 4 (tileUVs_length _ _ _ _), List.length_range', Nat.zero_add]

theorem MakeSliceGeometry_pos (T : IndexType) (d : Nat) (ss is : Point) (hss : ss.InRange)
    (his : is.InRange) (h1 : 0 < ss.w) (h2 : 0 < ss.h) (h3 : 0 < is.w) (h4 : 0 < is.h)
    (dflt : FPoint) (z : Nat) (v u : List FPoint) (i : List Nat) :
    MakeSliceGeometry T d ss is dflt z v u i = some (meshOf T d ss is dflt) := by
  obtain ⟨tw, th⟩ := ss
  obtain ⟨W, H⟩ := is
  simp only [Point.InRange] at hss his h1 h2 h3 h4
  lift tw to ℕ using le_of_lt h1
  lift th to ℕ using le_of_lt h2
  lift W to ℕ using le_of_lt h3
  lift H to ℕ using le_of_lt h4
  exact MakeSliceGeometry_nat T d tw th W H (by omega) (by omega) (by omega) (by omega)
    (by omega) (by omega) (by omega) (by omega) dflt z v u i

theorem MakeSliceGeometry_degenerate (T : IndexType) (d : Nat) (ss is : Point)
    (h : ss.w ≤ 0 ∨ ss.h ≤ 0 ∨ is.w ≤ 0 ∨ is.h ≤ 0)
    (dflt : FPoint) (z : Nat) (v u : List FPoint) (i : List Nat) :
    MakeSliceGeometry T d ss is dflt z v u i = some emptyMesh := by
  unfold MakeSliceGeometry
  simp only [if_pos h, clear, emptyMesh]

theorem MakeSliceGeometry_cases (T : IndexType) (d : Nat) (ss is : Point) (hss : ss.InRange)
    (his : is.InRange) (dflt : FPoint) (z : Nat) (v u : List FPoint) (i : List Nat) :
    MakeSliceGeometry T d ss is dflt z v u i = some emptyMesh ∨
      MakeSliceGeometry T d ss is dflt z v u i = some (meshOf T d ss is dflt) := by
  by_cases h : ss.w ≤ 0 ∨ ss.h ≤ 0 ∨ is.w ≤ 0 ∨ is.h ≤ 0
  · exact Or.inl (MakeSliceGeometry_degenerate T d ss is h dflt z v u i)
  · exact Or.inr (MakeSliceGeometry_pos T d ss is hss his (by omega) (by omega) (by omega)
      (by omega) dflt z v u i)

theorem meshOf_lengths (T : IndexType) (d : Nat) (ss is : Point) (dflt : FPoint) :
    (meshOf T d ss is dflt).verts.length = 4 * (meshOf T d ss is dflt).slices ∧
      (meshOf T d ss is dflt).uvs.length = 4 * (meshOf T d ss is dflt).slices ∧
      (meshOf T d ss is dflt).indices.length = 6 * (meshOf T d ss is dflt).slices := by
  refine ⟨?_, ?_, ?_⟩
  · simp only [meshOf, List.length_replicate]
  · simp only [meshOf, length_flatMap_const _ _ 4 (tileUVs_length ss is _ d),
      List.length_range']
  · simp only [meshOf]
    rw [length_flatMap_const _ (fun k => quadIndices T (4 * k)) 6
      (fun a => quadIndices_length T (4 * a)), List.length_range']

theorem meshOf_uvs_getElem? (T : IndexType) (d : Nat) (ss is : Point) (dflt : FPoint)
    (k j : Nat) (hk : k < (meshOf T d ss is dflt).slices) (hj : j < 4) :
    (meshOf T d ss is dflt).uvs[4 * k + j]? =
      (tileUVs ss is (is.w.toNat / ss.w.toNat) d k)[j]? := by
  have h := getElem?_flatMap_range' (tileUVs ss is (is.w.toNat / ss.w.toNat) d) 4
    (tileUVs_length ss is _ d) _ 0 k j hk hj
  rw [Nat.zero_add] at h
  exact h

theorem meshOf_indices_getElem? (T : IndexType) (d : Nat) (ss is : Point) (dflt : FPoint)
    (k j : Nat) (hk : k < (meshOf T d ss is dflt).slices) (hj : j < 6) :
    (meshOf T d ss is dflt).indices[6 * k + j]? = (quadIndices T (4 * k))[j]? := by
  have h := getElem?_flatMap_range' (fun k => quadIndices T (4 * k)) 6
    (fun a => quadIndices_length T (4 * a)) _ 0 k j hk hj
  rw [Nat.zero_add] at h
  exact h

/-! ## binary32: the rounding is to the nearest value with a 24-bit significand -/

theorem pow2_eq_zpow (e : Int) : pow2 e = (2 : ℚ) ^ e := by
  unfold pow2
  split_ifs with h
  · lift e to ℕ using h
    simp
  · obtain ⟨n, rfl⟩ := Int.exists_eq_neg_ofNat (le_of_lt (not_le.mp h))
    simp

theorem exponentLoop_up :
    ∀ (fuel : Nat) (a : ℚ) (e : Int), 1 ≤ a → a < 2 ^ fuel →
      ∃ k : ℕ, exponentLoop fuel a e = e + k ∧ (2 : ℚ) ^ k ≤ a ∧ a < 2 ^ (k + 1) := by
  intro fuel
  induction fuel with
  | zero =>
    intro a e h1 h2
    rw [pow_zero] at h2
    exact absurd h1 (not_le.mpr h2)
  | succ fuel ih =>
    intro a e h1 h2
    rw [exponentLoop]
    by_cases h : 2 ≤ a
    · rw [if_pos h]
      obtain ⟨k, hk, hlo, hhi⟩ := ih (a / 2) (e + 1) (by linarith)
        (by rw [pow_succ] at h2; linarith)
      refine ⟨k + 1, ?_, ?_, ?_⟩
      · rw [hk]; push_cast; ring
      · rw [pow_succ]; linarith
      · rw [pow_succ]; linarith
    · rw [if_neg h, if_neg (fun hc => absurd h1 (not_le.mpr hc.1))]
      exact ⟨0, by simp, by simpa using h1, by simpa using not_le.mp h⟩

theorem exponentLoop_down :
    ∀ (fuel : Nat) (a : ℚ) (e : Int), 0 < a → a < 2 → 2 ≤ a * 2 ^ fuel → -126 ≤ e →
      ∃ j : ℕ, exponentLoop fuel a e = e - j ∧
        ((1 ≤ a * 2 ^ j ∧ a * 2 ^ j < 2) ∨ (a * 2 ^ j < 1 ∧ e - j = -126)) := by
  intro fuel
  induction fuel with
  | zero =>
    intro a e _ h2 h3 _
    rw [pow_zero, mul_one] at h3
    exact absurd h3 (not_le.mpr h2)
  | succ fuel ih =>
    intro a e h1 h2 h3 h4
    rw [exponentLoop, if_neg (not_le.mpr h2)]
    by_cases h : a < 1 ∧ -126 < e
    · rw [if_pos h]
      obtain ⟨j, hj, hcase⟩ := ih (a * 2) (e - 1) (by linarith) (by linarith)
        (by rw [pow_succ] at h3; linarith) (by omega)
      refine ⟨j + 1, ?_, ?_⟩
      · rw [hj]; push_cast; ring
      · have e1 : a * 2 ^ (j + 1) = a * 2 * 2 ^ j := by rw [pow_succ]; ring
        have e2 : e - ((j + 1 : ℕ) : Int) = e - 1 - j := by push_cast; ring
        rw [e1, e2]
        exact hcase
    · rw [if_neg h]
      refine ⟨0, by simp, ?_⟩
      rw [pow_zero, mul_one]
      by_cases ha : a < 1
      · right
        have : ¬ -126 < e := fun hc => h ⟨ha, hc⟩
        exact ⟨ha, by simp; omega⟩
      · left
        exact ⟨not_lt.mp ha, h2⟩

/-- The exponent search always finishes within its fuel and returns the binade of `a`:
`2^e <= a < 2^(e+1)`, or `e = -126` for a value below the least normal number. -/
theorem binaryExponent_spec (a : ℚ) (ha : 0 < a) :
    (pow2 (binaryExponent a) ≤ a ∧ a < pow2 (binaryExponent a + 1)) ∨
      (binaryExponent a = -126 ∧ a < pow2 (-126)) := by
  have hnum : 0 < a.num := Rat.num_pos.mpr ha
  have hd1 : (1 : ℚ) ≤ a.den := by exact_mod_cast a.den_pos
  have hn1 : (1 : ℚ) ≤ a.num.natAbs := by
    have : 1 ≤ a.num.natAbs := Int.natAbs_pos.mpr (ne_of_gt hnum)
    exact_mod_cast this
  have hmul : a * (a.den : ℚ) = (a.num.natAbs : ℚ) := by
    rw [Rat.mul_den_eq_num, Nat.cast_natAbs, abs_of_pos hnum]
  have h4 : (a.den : ℚ) < 2 ^ a.den := by exact_mod_cast Nat.lt_two_pow a.den
  simp only [pow2_eq_zpow]
  unfold binaryExponent
  by_cases h1 : 1 ≤ a
  · have hlt : a < 2 ^ (a.num.natAbs + a.den) := by
      have h3 : a ≤ a.num.natAbs := by nlinarith
      have h5 : (a.num.natAbs : ℚ) < 2 ^ a.num.natAbs := by
        exact_mod_cast Nat.lt_two_pow a.num.natAbs
      have h6 : (2 : ℚ) ^ a.num.natAbs ≤ 2 ^ (a.num.natAbs + a.den) :=
        pow_le_pow_right₀ (by norm_num) (Nat.le_add_right _ _)
      linarith
    obtain ⟨k, hk, hlo, hhi⟩ := exponentLoop_up _ a 0 h1 hlt
    left
    rw [hk, zero_add]
    constructor
    · rw [zpow_natCast]; exact hlo
    · have : ((k : ℤ) + 1) = ((k + 1 : ℕ) : ℤ) := by push_cast; ring
      rw [this, zpow_natCast]; exact hhi
  · have h2 : a < 2 := by linarith [not_le.mp h1]
    have hfuel : 2 ≤ a * 2 ^ (a.num.natAbs + a.den) := by
      have h5 : (2 : ℚ) ≤ 2 ^ a.num.natAbs := by
        have : (2 : ℚ) ^ 1 ≤ 2 ^ a.num.natAbs :=
          pow_le_pow_right₀ (by norm_num) (Int.natAbs_pos.mpr (ne_of_gt hnum))
        simpa using this
      have h6 : (1 : ℚ) ≤ a * 2 ^ a.den := by nlinarith
      rw [pow_add]
      nlinarith
    obtain ⟨j, hj, hcase⟩ := exponentLoop_down _ a 0 ha h2 hfuel (by norm_num)
    have hpos : (0 : ℚ) < 2 ^ j := pow_pos (by norm_num) j
    rcases hcase with ⟨hlo, hhi⟩ | ⟨hlt, he⟩
    · left
      rw [hj, zero_sub]
      constructor
      · rw [zpow_neg, zpow_natCast, inv_eq_one_div, div_le_iff₀ hpos]
        exact hlo
      · have : (-(j : ℤ) + 1) = 1 - j := by ring
        rw [this, zpow_sub₀ (by norm_num), zpow_one, zpow_natCast, lt_div_iff₀ hpos]
        exact hhi
    · right
      rw [hj]
      refine ⟨he, ?_⟩
      have hj2 : -(j : ℤ) = -126 := by omega
      rw [← hj2, zpow_neg, zpow_natCast, inv_eq_one_div, lt_div_iff₀ hpos]
      exact hlt

/-- The result of `roundHalfEven` is a nearest integer, and an even one at a tie. -/
theorem roundHalfEven_spec (q : ℚ) :
    |(roundHalfEven q : ℚ) - q| ≤ 1 / 2 ∧
      (|(roundHalfEven q : ℚ) - q| = 1 / 2 → roundHalfEven q % 2 = 0) := by
  have h1 := Int.floor_le q
  have h2 := Int.lt_floor_add_one q
  unfold roundHalfEven
  simp only []
  split_ifs with c1 c2 c3
  · constructor
    · rw [abs_le]; constructor <;> linarith
    · intro h
      rw [abs_sub_comm, abs_of_nonneg (by linarith)] at h
      linarith
  · constructor
    · rw [abs_le]; push_cast; constructor <;> linarith
    · intro h
      push_cast at h
      rw [abs_of_nonneg (by linarith)] at h
      linarith
  · constructor
    · rw [abs_le]; constructor <;> linarith
    · intro _; exact c3
  · constructor
    · rw [abs_le]; push_cast; constructor <;> linarith
    · intro _; omega

theorem roundHalfEven_bounds (q : ℚ) : ⌊q⌋ ≤ roundHalfEven q ∧ roundHalfEven q ≤ ⌊q⌋ + 1 := by
  unfold roundHalfEven
  simp only []
  split_ifs <;> omega

/-- The result of `roundF32` is a multiple `m * ulp` of the spacing of the binade of `q`, with
`0 <= m <= 2^24`, it has the sign of `q`, and it is within half a spacing of `q`. -/
theorem roundF32_spec (q : ℚ) (hq : q ≠ 0) :
    abs (roundF32 q) = (roundHalfEven (abs q / pow2 (binaryExponent (abs q) - 23)) : ℚ) *
        pow2 (binaryExponent (abs q) - 23) ∧
      (0 ≤ q → 0 ≤ roundF32 q) ∧ (q ≤ 0 → roundF32 q ≤ 0) ∧
      0 ≤ roundHalfEven (abs q / pow2 (binaryExponent (abs q) - 23)) ∧
      roundHalfEven (abs q / pow2 (binaryExponent (abs q) - 23)) ≤ 2 ^ 24 ∧
      abs (roundF32 q - q) ≤ pow2 (binaryExponent (abs q) - 23) / 2 := by
  have ha : 0 < abs q := abs_pos.mpr hq
  have hspec := binaryExponent_spec (abs q) ha
  have hround := roundHalfEven_spec (abs q / pow2 (binaryExponent (abs q) - 23))
  have hbounds := roundHalfEven_bounds (abs q / pow2 (binaryExponent (abs q) - 23))
  have hdef : roundF32 q = if q < 0
      then -((roundHalfEven (abs q / pow2 (binaryExponent (abs q) - 23)) : ℚ) *
        pow2 (binaryExponent (abs q) - 23))
      else (roundHalfEven (abs q / pow2 (binaryExponent (abs q) - 23)) : ℚ) *
        pow2 (binaryExponent (abs q) - 23) := by
    unfold roundF32
    rw [if_neg hq]
  have e1 : (2 : ℚ) ^ 24 * pow2 (binaryExponent (abs q) - 23) =
      pow2 (binaryExponent (abs q) + 1) := by
    rw [pow2_eq_zpow, pow2_eq_zpow]
    have : binaryExponent (abs q) + 1 = (24 : ℕ) + (binaryExponent (abs q) - 23) := by
      push_cast; ring
    rw [this, zpow_add₀ (by norm_num), zpow_natCast]
  have hsub : pow2 (-126) < pow2 (-126 + 1) := by
    rw [pow2_eq_zpow, pow2_eq_zpow]
    exact zpow_lt_zpow_right₀ (by norm_num) (by norm_num)
  have hu : 0 < pow2 (binaryExponent (abs q) - 23) := by
    rw [pow2_eq_zpow]; exact zpow_pos (by norm_num) _
  generalize pow2 (binaryExponent (abs q) - 23) = u at *
  generalize roundHalfEven (abs q / u) = m at *
  have hlt : abs q / u < 2 ^ 24 := by
    rw [div_lt_iff₀ hu, e1]
    rcases hspec with h | h
    · exact h.2
    · rw [h.1]; exact lt_trans h.2 hsub
  have hm0 : 0 ≤ m :=
    le_trans (Int.floor_nonneg.mpr (div_nonneg (le_of_lt ha) (le_of_lt hu))) hbounds.1
  have hm1 : m ≤ 2 ^ 24 := by
    have h1 : ⌊abs q / u⌋ < 2 ^ 24 := by
      rw [Int.floor_lt]; exact_mod_cast hlt
    have := hbounds.2
    omega
  have hm0q : (0 : ℚ) ≤ (m : ℚ) := by exact_mod_cast hm0
  have hmu : 0 ≤ (m : ℚ) * u := mul_nonneg hm0q (le_of_lt hu)
  have herr : abs ((m : ℚ) * u - abs q) ≤ u / 2 := by
    have e2 : (m : ℚ) * u - abs q = ((m : ℚ) - abs q / u) * u := by
      field_simp
    rw [e2, abs_mul, abs_of_pos hu]
    nlinarith [hround.1]
  rw [hdef]
  by_cases hneg : q < 0
  · rw [if_pos hneg]
    refine ⟨?_, ?_, ?_, hm0, hm1, ?_⟩
    · rw [abs_neg, abs_of_nonneg hmu]
    · intro h; exact absurd h (not_le.mpr hneg)
    · intro _; linarith
    · rw [abs_of_neg hneg] at herr
      have e3 : -((m : ℚ) * u) - q = -((m : ℚ) * u - -q) := by ring
      rw [e3, abs_neg]
      exact herr
  · rw [if_neg hneg]
    have hq0 : 0 ≤ q := not_lt.mp hneg
    refine ⟨abs_of_nonneg hmu, fun _ => hmu, ?_, hm0, hm1, ?_⟩
    · intro h; exact absurd (le_antisymm h hq0) hq
    · rw [abs_of_nonneg hq0] at herr
      exact herr

/-- Sample roundings: decimal literals, integers around `2^24`, and subnormal ties. -/
theorem roundF32_examples :
    roundF32 1 = 1 ∧ roundF32 (1 / 10) = 13421773 / 134217728 ∧
      roundF32 (2 / 5) = 13421773 / 33554432 ∧ roundF32 (-(25 / 10000)) = -5368709 / 2147483648 ∧
      roundF32 16777216 = 16777216 ∧ roundF32 16777217 = 16777216 ∧
      roundF32 16777218 = 16777218 ∧ roundF32 16777219 = 16777220 ∧
      roundF32 (2 ^ 31 - 1) = 2 ^ 31 ∧ roundF32 (1 / 2 ^ 149) = 1 / 2 ^ 149 ∧
      roundF32 (1 / 2 ^ 150) = 0 ∧ roundF32 (3 / 2 ^ 150) = 1 / 2 ^ 148 := by
  decide!

/-! ## Index values -/

theorem cast_le (T : IndexType) (n : Nat) : T.cast n ≤ n := Nat.mod_le n _

theorem cast_cast_add (T : IndexType) (n c : Nat) : T.cast (T.cast n + c) = T.cast (n + c) :=
  Nat.mod_add_mod n _ c

theorem quadIndices_eq (T : IndexType) (n : Nat) :
    quadIndices T n = [T.cast n, T.cast (n + 1), T.cast (n + 2), T.cast (n + 1),
      T.cast (n + 2), T.cast (n + 3)] := by
  simp only [quadIndices, cast_cast_add]

theorem mem_quadIndices_le (T : IndexType) (n v : Nat) (h : v ∈ quadIndices T n) :
    v ≤ n + 3 := by
  rw [quadIndices_eq] at h
  have h0 := cast_le T n
  have h1 := cast_le T (n + 1)
  have h2 := cast_le T (n + 2)
  have h3 := cast_le T (n + 3)
  simp only [List.mem_cons, List.mem_singleton, List.not_mem_nil, or_false] at h
  omega

theorem meshOf_indices_lt (T : IndexType) (d : Nat) (ss is : Point) (dflt : FPoint) (v : Nat)
    (h : v ∈ (meshOf T d ss is dflt).indices) : v < 4 * (meshOf T d ss is dflt).slices := by
  obtain ⟨k, _, hk, hv⟩ := mem_flatMap_range' _ _ _ _ h
  have := mem_quadIndices_le T (4 * k) v hv
  show v < 4 * (_ * _ * d)
  omega

/-! ## The reverse loop -/

theorem reverseLoop_eq (l : List Nat) :
    ∀ (base : Nat) (acc : List Nat), reverseLoop l base acc = acc ++ (l.take base).reverse := by
  intro base
  induction base with
  | zero => intro acc; simp [reverseLoop]
  | succ base ih =>
    intro acc
    rw [reverseLoop, ih, List.take_succ, List.reverse_append, List.append_assoc]
    congr 2
    cases l[base]? <;> rfl

theorem reverseIndices_eq_reverse (l : List Nat) : reverseIndices l = l.reverse := by
  unfold reverseIndices
  rw [reverseLoop_eq, List.take_length, List.nil_append]

/-! ## Results on `MakeSliceGeometry` and the reverse buffer -/

/-- C1: for every positive image size `(W, H)` and tile size `(tw, th)` (values of a 32-bit
`int`) and every duplication factor `d`, `MakeSliceGeometry` returns, with the tile count
`floor(W/tw) * floor(H/th) * d` and with `z_height` set to `floor(W/tw) * floor(H/th)`; a
trailing partial row or column adds nothing to either count. -/
theorem C1_tile_and_column_count (T : IndexType) (d tw th W H : Nat) (htw : PosInt32 tw)
    (hth : PosInt32 th) (hW : PosInt32 W) (hH : PosInt32 H) (dflt : FPoint) (z : Nat)
    (v u : List FPoint) (i : List Nat) :
    ∃ g, MakeSliceGeometry T d ⟨(tw : Int), (th : Int)⟩ ⟨(W : Int), (H : Int)⟩ dflt z v u i =
        some g ∧
      g.slices = W / tw * (H / th) * d ∧ g.z_height = W / tw * (H / th) := by
  refine ⟨_, MakeSliceGeometry_nat T d tw th W H htw.1 hth.1 hW.1 hH.1 hW.2 hH.2 htw.2 hth.2
    dflt z v u i, ?_, ?_⟩
  · simp only [meshOf, Int.toNat_natCast, Nat.mul_comm (H / th) (W / tw)]
  · simp only [meshOf, Int.toNat_natCast, Nat.mul_comm (H / th) (W / tw)]

/-- C1 at the image `(100, 100)` with tile `(30, 30)` and `d = 1`: both counts are 9. -/
theorem C1_tile_and_column_count_witness :
    (PosInt32 30 ∧ PosInt32 100) ∧
      ∃ g, MakeSliceGeometry .u32 1 ⟨30, 30⟩ ⟨100, 100⟩ ⟨0, 0⟩ 0 [] [] [] = some g ∧
        g.slices = 9 ∧ g.z_height = 9 :=
  ⟨by decide, C1_tile_and_column_count .u32 1 30 30 100 100 (by decide) (by decide) (by decide)
    (by decide) ⟨0, 0⟩ 0 [] [] []⟩

/-- C2: for every input whose dimensions are 32-bit `int` values, valid or degenerate,
`MakeSliceGeometry` returns, and afterwards `|verts| = |uvs| = 4 * tileCount`,
`|indices| = 6 * tileCount`, and the reverse index buffer built in `Run` has length
`6 * tileCount` as well. -/
theorem C2_buffer_lengths (T : IndexType) (d : Nat) (ss is : Point) (hss : ss.InRange)
    (his : is.InRange) (dflt : FPoint) (z : Nat) (v u : List FPoint) (i : List Nat) :
    ∃ g, MakeSliceGeometry T d ss is dflt z v u i = some g ∧
      g.verts.length = 4 * g.slices ∧ g.uvs.length = 4 * g.slices ∧
      g.indices.length = 6 * g.slices ∧ (reverseIndices g.indices).length = 6 * g.slices := by
  rcases MakeSliceGeometry_cases T d ss is hss his dflt z v u i with h | h
  · exact ⟨_, h, rfl, rfl, rfl, rfl⟩
  · obtain ⟨h1, h2, h3⟩ := meshOf_lengths T d ss is dflt
    refine ⟨_, h, h1, h2, h3, ?_⟩
    rw [reverseIndices_eq_reverse, List.length_reverse, h3]

/-- C2 at a 5 x 4 image cut into 2 x 2 tiles, three copies each, with buffers that are not
empty before the call. -/
theorem C2_buffer_lengths_witness :
    (Point.InRange ⟨2, 2⟩ ∧ Point.InRange ⟨5, 4⟩) ∧
      ∃ g, MakeSliceGeometry .u16 3 ⟨2, 2⟩ ⟨5, 4⟩ ⟨0, 0⟩ 7 [⟨1, 1⟩] [⟨2, 2⟩] [9, 9] = some g ∧
        g.verts.length = 4 * g.slices ∧ g.uvs.length = 4 * g.slices ∧
        g.indices.length = 6 * g.slices ∧ (reverseIndices g.indices).length = 6 * g.slices :=
  ⟨by decide, C2_buffer_lengths .u16 3 ⟨2, 2⟩ ⟨5, 4⟩ (by decide) (by decide) ⟨0, 0⟩ 7 [⟨1, 1⟩]
    [⟨2, 2⟩] [9, 9]⟩

/-- C3: for every input whose dimensions are 32-bit `int` values and every index type `T` of
1, 2 or 4 bytes, every value stored in the index buffer is below `4 * tileCount`, which is
the length of the vertex buffer. -/
theorem C3_indices_in_bounds (T : IndexType) (d : Nat) (ss is : Point) (hss : ss.InRange)
    (his : is.InRange) (dflt : FPoint) (z : Nat) (v u : List FPoint) (i : List Nat) :
    ∃ g, MakeSliceGeometry T d ss is dflt z v u i = some g ∧
      ∀ a ∈ g.indices, a < 4 * g.slices ∧ a < g.verts.length := by
  rcases MakeSliceGeometry_cases T d ss is hss his dflt z v u i with h | h
  · exact ⟨_, h, fun a ha => absurd ha (List.not_mem_nil a)⟩
  · refine ⟨_, h, fun a ha => ?_⟩
    have h1 := meshOf_indices_lt T d ss is dflt a ha
    exact ⟨h1, by rw [(meshOf_lengths T d ss is dflt).1]; exact h1⟩

/-- C3 at a one-byte index type with 70 quads, where the running vertex number passes 255. -/
theorem C3_indices_in_bounds_witness :
    (Point.InRange ⟨1, 1⟩ ∧ Point.InRange ⟨7, 1⟩) ∧
      ∃ g, MakeSliceGeometry .u8 10 ⟨1, 1⟩ ⟨7, 1⟩ ⟨0, 0⟩ 0 [] [] [] = some g ∧
        ∀ a ∈ g.indices, a < 4 * g.slices ∧ a < g.verts.length :=
  ⟨by decide, C3_indices_in_bounds .u8 10 ⟨1, 1⟩ ⟨7, 1⟩ (by decide) (by decide) ⟨0, 0⟩ 0 [] []
    []⟩

theorem meshOf_slices_nat (T : IndexType) (d tw th W H : Nat) (dflt : FPoint) :
    (meshOf T d ⟨(tw : Int), (th : Int)⟩ ⟨(W : Int), (H : Int)⟩ dflt).slices =
      W / tw * (H / th) * d := by
  simp only [meshOf, Int.toNat_natCast, Nat.mul_comm (H / th) (W / tw)]

/-- C4, as stated, fails: the UV buffer holds `float` values.  For the 5 x 4 image cut into
2 x 2 tiles, three copies each, quad 3 lies in the cell with origin `(2, 0)` and its first
corner is stored as `13421773/33554432`, the binary32 value nearest to `2/5`, not `2/5`.  For
the image of width `33554432 = 2^25` and height 1 cut into 1 x 1 tiles, quad
`16777217 = 2^24 + 1` has origin `(2^24 + 1, 0)`; `(float)x` and `(float)x + 1` both round to
`2^24`, so its left and right corners are both stored as `1/2`. -/
theorem C4_uv_corners_counterexample :
    (∃ g, MakeSliceGeometry .u32 3 ⟨2, 2⟩ ⟨5, 4⟩ ⟨0, 0⟩ 0 [] [] [] = some g ∧
        gridX 2 5 3 3 = 2 ∧ gridY 2 2 5 3 3 = 0 ∧
        g.uvs[4 * 3]? = some ⟨13421773 / 33554432, 0⟩ ∧
        g.uvs[4 * 3]? ≠ some ⟨(gridX 2 5 3 3 : ℚ) / 5, (gridY 2 2 5 3 3 : ℚ) / 4⟩) ∧
      (∃ g, MakeSliceGeometry .u32 1 ⟨1, 1⟩ ⟨33554432, 1⟩ ⟨0, 0⟩ 0 [] [] [] = some g ∧
        gridX 1 33554432 1 16777217 = 16777217 ∧ gridY 1 1 33554432 1 16777217 = 0 ∧
        g.uvs[4 * 16777217]? = some ⟨1 / 2, 0⟩ ∧
        g.uvs[4 * 16777217 + 1]? = some ⟨1 / 2, 0⟩ ∧
        g.uvs[4 * 16777217]? ≠
          some ⟨(gridX 1 33554432 1 16777217 : ℚ) / 33554432,
            (gridY 1 1 33554432 1 16777217 : ℚ) / 1⟩) := by
  constructor
  · have hk : 3 < (meshOf .u32 3 ⟨((2 : ℕ) : Int), ((2 : ℕ) : Int)⟩
        ⟨((5 : ℕ) : Int), ((4 : ℕ) : Int)⟩ ⟨0, 0⟩).slices := by
      rw [meshOf_slices_nat]; decide
    have h0 := meshOf_uvs_getElem? .u32 3 _ _ ⟨0, 0⟩ 3 0 hk (by norm_num)
    rw [Nat.add_zero] at h0
    have hv : (tileUVs ⟨((2 : ℕ) : Int), ((2 : ℕ) : Int)⟩ ⟨((5 : ℕ) : Int), ((4 : ℕ) : Int)⟩
        (((5 : ℕ) : Int).toNat / ((2 : ℕ) : Int).toNat) 3 3)[0]? =
        some ⟨13421773 / 33554432, 0⟩ := by decide!
    rw [hv] at h0
    refine ⟨_, MakeSliceGeometry_nat .u32 3 2 2 5 4 (by decide) (by decide) (by decide)
      (by decide) (by decide) (by decide) (by decide) (by decide) ⟨0, 0⟩ 0 [] [] [],
      by decide, by decide, h0, ?_⟩
    rw [h0]
    decide!
  · have hk : 16777217 < (meshOf .u32 1 ⟨((1 : ℕ) : Int), ((1 : ℕ) : Int)⟩
        ⟨((33554432 : ℕ) : Int), ((1 : ℕ) : Int)⟩ ⟨0, 0⟩).slices := by
      rw [meshOf_slices_nat]; norm_num
    have h0 := meshOf_uvs_getElem? .u32 1 _ _ ⟨0, 0⟩ 16777217 0 hk (by norm_num)
    have h1 := meshOf_uvs_getElem? .u32 1 _ _ ⟨0, 0⟩ 16777217 1 hk (by norm_num)
    rw [Nat.add_zero] at h0
    have hv0 : (tileUVs ⟨((1 : ℕ) : Int), ((1 : ℕ) : Int)⟩
        ⟨((33554432 : ℕ) : Int), ((1 : ℕ) : Int)⟩
        (((33554432 : ℕ) : Int).toNat / ((1 : ℕ) : Int).toNat) 1 16777217)[0]? =
        some ⟨1 / 2, 0⟩ := by decide!
    have hv1 : (tileUVs ⟨((1 : ℕ) : Int), ((1 : ℕ) : Int)⟩
        ⟨((33554432 : ℕ) : Int), ((1 : ℕ) : Int)⟩
        (((33554432 : ℕ) : Int).toNat / ((1 : ℕ) : Int).toNat) 1 16777217)[1]? =
        some ⟨1 / 2, 0⟩ := by decide!
    rw [hv0] at h0
    rw [hv1] at h1
    refine ⟨_, MakeSliceGeometry_nat .u32 1 1 1 33554432 1 (by decide) (by decide)
      (by norm_num) (by decide) (by norm_num) (by decide) (by decide) (by decide) ⟨0, 0⟩ 0 []
      [] [], by decide!, by decide!, h0, h1, ?_⟩
    rw [h0]
    decide!

/-- C4, amended: for positive image size `(W, H)` and tile size `(tw, th)` and every quad
`k < tileCount`, with `(x, y) = (gridX, gridY)` the origin of its grid cell `k / d`, the UV
entries at `4k .. 4k+3` are the binary32 values of `(x/W, y/H)`, `((x+tw)/W, y/H)`,
`(x/W, (y+th)/H)` and `((x+tw)/W, (y+th)/H)`: every operand is converted to `float`, and each
sum and each quotient is rounded to the nearest binary32 value. -/
theorem C4_uv_corners_binary32 (T : IndexType) (d tw th W H : Nat) (htw : PosInt32 tw)
    (hth : PosInt32 th) (hW : PosInt32 W) (hH : PosInt32 H) (dflt : FPoint) (z : Nat)
    (v u : List FPoint) (i : List Nat) (k : Nat) (hk : k < W / tw * (H / th) * d) :
    ∃ g, MakeSliceGeometry T d ⟨(tw : Int), (th : Int)⟩ ⟨(W : Int), (H : Int)⟩ dflt z v u i =
        some g ∧
      g.uvs[4 * k]? =
        some ⟨F32.div (F32.ofInt (gridX tw W d k)) (F32.ofInt W),
          F32.div (F32.ofInt (gridY tw th W d k)) (F32.ofInt H)⟩ ∧
      g.uvs[4 * k + 1]? =
        some ⟨F32.div (F32.add (F32.ofInt (gridX tw W d k)) (F32.ofInt tw)) (F32.ofInt W),
          F32.div (F32.ofInt (gridY tw th W d k)) (F32.ofInt H)⟩ ∧
      g.uvs[4 * k + 2]? =
        some ⟨F32.div (F32.ofInt (gridX tw W d k)) (F32.ofInt W),
          F32.div (F32.add (F32.ofInt (gridY tw th W d k)) (F32.ofInt th)) (F32.ofInt H)⟩ ∧
      g.uvs[4 * k + 3]? =
        some ⟨F32.div (F32.add (F32.ofInt (gridX tw W d k)) (F32.ofInt tw)) (F32.ofInt W),
          F32.div (F32.add (F32.ofInt (gridY tw th W d k)) (F32.ofInt th)) (F32.ofInt H)⟩ := by
  have hk2 : k < (meshOf T d ⟨(tw : Int), (th : Int)⟩ ⟨(W : Int), (H : Int)⟩ dflt).slices := by
    rw [meshOf_slices_nat]; exact hk
  have h0 := meshOf_uvs_getElem? T d _ _ dflt k 0 hk2 (by norm_num)
  have h1 := meshOf_uvs_getElem? T d _ _ dflt k 1 hk2 (by norm_num)
  have h2 := meshOf_uvs_getElem? T d _ _ dflt k 2 hk2 (by norm_num)
  have h3 := meshOf_uvs_getElem? T d _ _ dflt k 3 hk2 (by norm_num)
  rw [Nat.add_zero] at h0
  refine ⟨_, MakeSliceGeometry_nat T d tw th W H htw.1 hth.1 hW.1 hH.1 hW.2 hH.2 htw.2 hth.2
    dflt z v u i, ?_, ?_, ?_, ?_⟩
  · rw [h0]; simp [tileUVs, quadUVs, FPoint.divPoint, gridX, gridY]
  · rw [h1]; simp [tileUVs, quadUVs, FPoint.divPoint, gridX, gridY]
  · rw [h2]; simp [tileUVs, quadUVs, FPoint.divPoint, gridX, gridY]
  · rw [h3]; simp [tileUVs, quadUVs, FPoint.divPoint, gridX, gridY]

/-- C4, amended, at a 5 x 4 image cut into 2 x 2 tiles, three copies each: quad 7 is a copy
of cell 2, the first cell of the second row, whose origin is `(0, 2)`. -/
theorem C4_uv_corners_binary32_witness :
    (PosInt32 2 ∧ PosInt32 5 ∧ PosInt32 4 ∧ 7 < 5 / 2 * (4 / 2) * 3) ∧
      ∃ g, MakeSliceGeometry .u32 3 ⟨2, 2⟩ ⟨5, 4⟩ ⟨0, 0⟩ 0 [] [] [] = some g ∧
        g.uvs[4 * 7]? =
          some ⟨F32.div (F32.ofInt (gridX 2 5 3 7)) (F32.ofInt (5 : ℕ)),
            F32.div (F32.ofInt (gridY 2 2 5 3 7)) (F32.ofInt (4 : ℕ))⟩ ∧
        g.uvs[4 * 7 + 1]? =
          some ⟨F32.div (F32.add (F32.ofInt (gridX 2 5 3 7)) (F32.ofInt (2 : ℕ)))
              (F32.ofInt (5 : ℕ)),
            F32.div (F32.ofInt (gridY 2 2 5 3 7)) (F32.ofInt (4 : ℕ))⟩ ∧
        g.uvs[4 * 7 + 2]? =
          some ⟨F32.div (F32.ofInt (gridX 2 5 3 7)) (F32.ofInt (5 : ℕ)),
            F32.div (F32.add (F32.ofInt (gridY 2 2 5 3 7)) (F32.ofInt (2 : ℕ)))
              (F32.ofInt (4 : ℕ))⟩ ∧
        g.uvs[4 * 7 + 3]? =
          some ⟨F32.div (F32.add (F32.ofInt (gridX 2 5 3 7)) (F32.ofInt (2 : ℕ)))
              (F32.ofInt (5 : ℕ)),
            F32.div (F32.add (F32.ofInt (gridY 2 2 5 3 7)) (F32.ofInt (2 : ℕ)))
              (F32.ofInt (4 : ℕ))⟩ :=
  ⟨by decide, C4_uv_corners_binary32 .u32 3 2 2 5 4 (by decide) (by decide) (by decide)
    (by decide) ⟨0, 0⟩ 0 [] [] [] 7 (by decide)⟩

/-- C5: for positive inputs for which `4 * tileCount - 1` is a value of the index type `T`,
and every quad `k < tileCount`, the index entries at `6k .. 6k+5` are `4k, 4k+1, 4k+2, 4k+1,
4k+2, 4k+3`. -/
theorem C5_triangle_indices (T : IndexType) (d tw th W H : Nat) (htw : PosInt32 tw)
    (hth : PosInt32 th) (hW : PosInt32 W) (hH : PosInt32 H) (dflt : FPoint) (z : Nat)
    (v u : List FPoint) (i : List Nat)
    (hrep : 4 * (W / tw * (H / th) * d) - 1 < T.modulus)
    (k : Nat) (hk : k < W / tw * (H / th) * d) :
    ∃ g, MakeSliceGeometry T d ⟨(tw : Int), (th : Int)⟩ ⟨(W : Int), (H : Int)⟩ dflt z v u i =
        some g ∧
      g.indices[6 * k]? = some (4 * k) ∧ g.indices[6 * k + 1]? = some (4 * k + 1) ∧
      g.indices[6 * k + 2]? = some (4 * k + 2) ∧ g.indices[6 * k + 3]? = some (4 * k + 1) ∧
      g.indices[6 * k + 4]? = some (4 * k + 2) ∧ g.indices[6 * k + 5]? = some (4 * k + 3) := by
  have hk2 : k < (meshOf T d ⟨(tw : Int), (th : Int)⟩ ⟨(W : Int), (H : Int)⟩ dflt).slices := by
    rw [meshOf_slices_nat]; exact hk
  have c0 : T.cast (4 * k) = 4 * k := Nat.mod_eq_of_lt (by omega)
  have c1 : T.cast (4 * k + 1) = 4 * k + 1 := Nat.mod_eq_of_lt (by omega)
  have c2 : T.cast (4 * k + 2) = 4 * k + 2 := Nat.mod_eq_of_lt (by omega)
  have c3 : T.cast (4 * k + 3) = 4 * k + 3 := Nat.mod_eq_of_lt (by omega)
  have h0 := meshOf_indices_getElem? T d _ _ dflt k 0 hk2 (by norm_num)
  have h1 := meshOf_indices_getElem? T d _ _ dflt k 1 hk2 (by norm_num)
  have h2 := meshOf_indices_getElem? T d _ _ dflt k 2 hk2 (by norm_num)
  have h3 := meshOf_indices_getElem? T d _ _ dflt k 3 hk2 (by norm_num)
  have h4 := meshOf_indices_getElem? T d _ _ dflt k 4 hk2 (by norm_num)
  have h5 := meshOf_indices_getElem? T d _ _ dflt k 5 hk2 (by norm_num)
  rw [Nat.add_zero] at h0
  rw [quadIndices_eq, c0, c1, c2, c3] at h0 h1 h2 h3 h4 h5
  exact ⟨_, MakeSliceGeometry_nat T d tw th W H htw.1 hth.1 hW.1 hH.1 hW.2 hH.2 htw.2 hth.2
    dflt z v u i, h0, h1, h2, h3, h4, h5⟩

/-- C5 at a one-byte index type with 64 quads, the most it can address: the last quad has
indices `252 .. 255`. -/
theorem C5_triangle_indices_witness :
    (PosInt32 1 ∧ PosInt32 8 ∧ 4 * (8 / 1 * (8 / 1) * 1) - 1 < IndexType.u8.modulus ∧
        63 < 8 / 1 * (8 / 1) * 1) ∧
      ∃ g, MakeSliceGeometry .u8 1 ⟨1, 1⟩ ⟨8, 8⟩ ⟨0, 0⟩ 0 [] [] [] = some g ∧
        g.indices[6 * 63]? = some (4 * 63) ∧ g.indices[6 * 63 + 1]? = some (4 * 63 + 1) ∧
        g.indices[6 * 63 + 2]? = some (4 * 63 + 2) ∧
        g.indices[6 * 63 + 3]? = some (4 * 63 + 1) ∧
        g.indices[6 * 63 + 4]? = some (4 * 63 + 2) ∧
        g.indices[6 * 63 + 5]? = some (4 * 63 + 3) :=
  ⟨by decide, C5_triangle_indices .u8 1 1 1 8 8 (by decide) (by decide) (by decide) (by decide)
    ⟨0, 0⟩ 0 [] [] [] (by decide) 63 (by decide)⟩

/-- C6, as stated, fails: with a one-byte index type and 65 quads, and with a four-byte index
type and `2^30 + 1` quads, the largest index `4 * tileCount - 1` is not a value of the index
type, yet `MakeSliceGeometry` returns the whole mesh, and the first index of the last quad
(`256`, respectively `2^32`) is stored as `0`. -/
theorem C6_capacity_overflow_counterexample :
    (∃ g, MakeSliceGeometry .u8 65 ⟨1, 1⟩ ⟨1, 1⟩ ⟨0, 0⟩ 0 [] [] [] = some g ∧
        g.slices = 65 ∧ ¬ (4 * g.slices - 1 < IndexType.u8.modulus) ∧
        g.indices.length = 6 * 65 ∧ g.indices[6 * 64]? = some 0 ∧ 4 * 64 ≠ 0) ∧
      (∃ g, MakeSliceGeometry .u32 (2 ^ 30 + 1) ⟨1, 1⟩ ⟨1, 1⟩ ⟨0, 0⟩ 0 [] [] [] = some g ∧
        g.slices = 2 ^ 30 + 1 ∧ ¬ (4 * g.slices - 1 < IndexType.u32.modulus) ∧
        g.indices.length = 6 * (2 ^ 30 + 1) ∧ g.indices[6 * 2 ^ 30]? = some 0 ∧
        4 * 2 ^ 30 ≠ 0) := by
  have key : ∀ (T : IndexType) (d : Nat),
      ∃ g, MakeSliceGeometry T d ⟨1, 1⟩ ⟨1, 1⟩ ⟨0, 0⟩ 0 [] [] [] = some g ∧ g.slices = d ∧
        g.indices.length = 6 * d ∧
        ∀ k, k < d → g.indices[6 * k]? = some (T.cast (4 * k)) := by
    intro T d
    have hs : (meshOf T d ⟨((1 : ℕ) : Int), ((1 : ℕ) : Int)⟩ ⟨((1 : ℕ) : Int), ((1 : ℕ) : Int)⟩
        ⟨0, 0⟩).slices = d := by
      rw [meshOf_slices_nat]; simp
    refine ⟨_, MakeSliceGeometry_nat T d 1 1 1 1 (by decide) (by decide) (by decide)
      (by decide) (by decide) (by decide) (by decide) (by decide) ⟨0, 0⟩ 0 [] [] [], hs, ?_, ?_⟩
    · rw [(meshOf_lengths T d _ _ _).2.2, hs]
    · intro k hk
      have h0 := meshOf_indices_getElem? T d ⟨((1 : ℕ) : Int), ((1 : ℕ) : Int)⟩
        ⟨((1 : ℕ) : Int), ((1 : ℕ) : Int)⟩ ⟨0, 0⟩ k 0 (by rw [hs]; exact hk) (by norm_num)
      rw [Nat.add_zero, quadIndices_eq] at h0
      rw [h0]; rfl
  constructor
  · obtain ⟨g, h1, h2, h3, h4⟩ := key .u8 65
    refine ⟨g, h1, h2, ?_, h3, ?_, by norm_num⟩
    · rw [h2]; decide
    · rw [h4 64 (by norm_num)]; rfl
  · obtain ⟨g, h1, h2, h3, h4⟩ := key .u32 (2 ^ 30 + 1)
    refine ⟨g, h1, h2, ?_, h3, ?_, by norm_num⟩
    · rw [h2]; norm_num [IndexType.modulus, IndexType.sizeof]
    · rw [h4 (2 ^ 30) (by norm_num)]
      norm_num [IndexType.cast, IndexType.modulus, IndexType.sizeof]

/-- C6, amended: `MakeSliceGeometry` has no capacity check.  For positive inputs and every
index type it returns the whole mesh of `floor(W/tw) * floor(H/th) * d` quads, and the index
entries of quad `k` at `6k .. 6k+5` are `4k, 4k+1, 4k+2, 4k+1, 4k+2, 4k+3`, each reduced
modulo `2^(8 * sizeof T)`. -/
theorem C6_indices_reduced (T : IndexType) (d tw th W H : Nat) (htw : PosInt32 tw)
    (hth : PosInt32 th) (hW : PosInt32 W) (hH : PosInt32 H) (dflt : FPoint) (z : Nat)
    (v u : List FPoint) (i : List Nat) :
    ∃ g, MakeSliceGeometry T d ⟨(tw : Int), (th : Int)⟩ ⟨(W : Int), (H : Int)⟩ dflt z v u i =
        some g ∧
      g.slices = W / tw * (H / th) * d ∧ g.indices.length = 6 * g.slices ∧
      g.uvs.length = 4 * g.slices ∧
      ∀ k, k < g.slices →
        g.indices[6 * k]? = some (4 * k % 2 ^ (8 * T.sizeof)) ∧
        g.indices[6 * k + 1]? = some ((4 * k + 1) % 2 ^ (8 * T.sizeof)) ∧
        g.indices[6 * k + 2]? = some ((4 * k + 2) % 2 ^ (8 * T.sizeof)) ∧
        g.indices[6 * k + 3]? = some ((4 * k + 1) % 2 ^ (8 * T.sizeof)) ∧
        g.indices[6 * k + 4]? = some ((4 * k + 2) % 2 ^ (8 * T.sizeof)) ∧
        g.indices[6 * k + 5]? = some ((4 * k + 3) % 2 ^ (8 * T.sizeof)) := by
  obtain ⟨_, l2, l3⟩ := meshOf_lengths T d ⟨(tw : Int), (th : Int)⟩ ⟨(W : Int), (H : Int)⟩ dflt
  refine ⟨_, MakeSliceGeometry_nat T d tw th W H htw.1 hth.1 hW.1 hH.1 hW.2 hH.2 htw.2 hth.2
    dflt z v u i, meshOf_slices_nat T d tw th W H dflt, l3, l2, ?_⟩
  intro k hk
  have h0 := meshOf_indices_getElem? T d _ _ dflt k 0 hk (by norm_num)
  have h1 := meshOf_indices_getElem? T d _ _ dflt k 1 hk (by norm_num)
  have h2 := meshOf_indices_getElem? T d _ _ dflt k 2 hk (by norm_num)
  have h3 := meshOf_indices_getElem? T d _ _ dflt k 3 hk (by norm_num)
  have h4 := meshOf_indices_getElem? T d _ _ dflt k 4 hk (by norm_num)
  have h5 := meshOf_indices_getElem? T d _ _ dflt k 5 hk (by norm_num)
  rw [Nat.add_zero] at h0
  rw [quadIndices_eq] at h0 h1 h2 h3 h4 h5
  exact ⟨h0, h1, h2, h3, h4, h5⟩

/-- C6, amended, at a two-byte index type and a 3 x 3 image of 1 x 1 tiles, two copies each. -/
theorem C6_indices_reduced_witness :
    (PosInt32 1 ∧ PosInt32 3) ∧
      ∃ g, MakeSliceGeometry .u16 2 ⟨1, 1⟩ ⟨3, 3⟩ ⟨0, 0⟩ 0 [] [] [] = some g ∧
        g.slices = 3 / 1 * (3 / 1) * 2 ∧ g.indices.length = 6 * g.slices ∧
        g.uvs.length = 4 * g.slices ∧
        ∀ k, k < g.slices →
          g.indices[6 * k]? = some (4 * k % 2 ^ (8 * IndexType.u16.sizeof)) ∧
          g.indices[6 * k + 1]? = some ((4 * k + 1) % 2 ^ (8 * IndexType.u16.sizeof)) ∧
          g.indices[6 * k + 2]? = some ((4 * k + 2) % 2 ^ (8 * IndexType.u16.sizeof)) ∧
          g.indices[6 * k + 3]? = some ((4 * k + 1) % 2 ^ (8 * IndexType.u16.sizeof)) ∧
          g.indices[6 * k + 4]? = some ((4 * k + 2) % 2 ^ (8 * IndexType.u16.sizeof)) ∧
          g.indices[6 * k + 5]? = some ((4 * k + 3) % 2 ^ (8 * IndexType.u16.sizeof)) :=
  ⟨by decide, C6_indices_reduced .u16 2 1 1 3 3 (by decide) (by decide) (by decide) (by decide)
    ⟨0, 0⟩ 0 [] [] []⟩

/-- C7: for every duplication factor and every tile size and image size with at least one
of the four dimensions `<= 0`, `MakeSliceGeometry` returns 0 without failing, with `z_height`
0 and the vertex, UV and index buffers empty, whatever they held before the call. -/
theorem C7_degenerate_dimensions (T : IndexType) (d : Nat) (ss is : Point)
    (h : ss.w ≤ 0 ∨ ss.h ≤ 0 ∨ is.w ≤ 0 ∨ is.h ≤ 0)
    (dflt : FPoint) (z : Nat) (v u : List FPoint) (i : List Nat) :
    ∃ g, MakeSliceGeometry T d ss is dflt z v u i = some g ∧ g.slices = 0 ∧ g.z_height = 0 ∧
      g.verts = [] ∧ g.uvs = [] ∧ g.indices = [] :=
  ⟨_, MakeSliceGeometry_degenerate T d ss is h dflt z v u i, rfl, rfl, rfl, rfl, rfl⟩

/-- C7 at a negative tile height, with buffers that are not empty before the call. -/
theorem C7_degenerate_dimensions_witness :
    ((16 : Int) ≤ 0 ∨ (-1 : Int) ≤ 0 ∨ (64 : Int) ≤ 0 ∨ (64 : Int) ≤ 0) ∧
      ∃ g, MakeSliceGeometry .u32 1 ⟨16, -1⟩ ⟨64, 64⟩ ⟨0, 0⟩ 7 [⟨1, 1⟩] [⟨2, 2⟩] [9, 9] =
          some g ∧ g.slices = 0 ∧ g.z_height = 0 ∧ g.verts = [] ∧ g.uvs = [] ∧ g.indices = [] :=
  ⟨by decide, C7_degenerate_dimensions .u32 1 ⟨16, -1⟩ ⟨64, 64⟩ (by decide) ⟨0, 0⟩ 7 [⟨1, 1⟩]
    [⟨2, 2⟩] [9, 9]⟩

/-- C8: for every index buffer produced by `MakeSliceGeometry` (dimensions any 32-bit `int`
values), the reverse buffer built in `Run` is the index buffer in reversed order: for every
`j < 6 * tileCount`, `reverse[j] = indices[6 * tileCount - 1 - j]`, and reversing the reverse
buffer gives back the index buffer. -/
theorem C8_reverse_indices (T : IndexType) (d : Nat) (ss is : Point) (hss : ss.InRange)
    (his : is.InRange) (dflt : FPoint) (z : Nat) (v u : List FPoint) (i : List Nat) :
    ∃ g, MakeSliceGeometry T d ss is dflt z v u i = some g ∧
      (∀ j, j < 6 * g.slices → ∃ a, (reverseIndices g.indices)[j]? = some a ∧
        g.indices[6 * g.slices - 1 - j]? = some a) ∧
      reverseIndices g.indices = g.indices.reverse ∧
      reverseIndices (reverseIndices g.indices) = g.indices := by
  have key : ∀ g : Geometry, g.indices.length = 6 * g.slices →
      (∀ j, j < 6 * g.slices → ∃ a, (reverseIndices g.indices)[j]? = some a ∧
        g.indices[6 * g.slices - 1 - j]? = some a) ∧
      reverseIndices g.indices = g.indices.reverse ∧
      reverseIndices (reverseIndices g.indices) = g.indices := by
    intro g hlen
    refine ⟨fun j hj => ?_, reverseIndices_eq_reverse _, ?_⟩
    · have hj2 : 6 * g.slices - 1 - j < g.indices.length := by omega
      refine ⟨g.indices[6 * g.slices - 1 - j], ?_, List.getElem?_eq_getElem hj2⟩
      rw [reverseIndices_eq_reverse, List.getElem?_reverse (by omega), hlen]
      exact List.getElem?_eq_getElem hj2
    · rw [reverseIndices_eq_reverse, reverseIndices_eq_reverse, List.reverse_reverse]
  rcases MakeSliceGeometry_cases T d ss is hss his dflt z v u i with h | h
  · exact ⟨_, h, key _ rfl⟩
  · exact ⟨_, h, key _ (meshOf_lengths T d ss is dflt).2.2⟩

/-- C8 at a 4 x 2 image cut into 2 x 2 tiles. -/
theorem C8_reverse_indices_witness :
    (Point.InRange ⟨2, 2⟩ ∧ Point.InRange ⟨4, 2⟩) ∧
      ∃ g, MakeSliceGeometry .u32 1 ⟨2, 2⟩ ⟨4, 2⟩ ⟨0, 0⟩ 0 [] [] [] = some g ∧
        (∀ j, j < 6 * g.slices → ∃ a, (reverseIndices g.indices)[j]? = some a ∧
          g.indices[6 * g.slices - 1 - j]? = some a) ∧
        reverseIndices g.indices = g.indices.reverse ∧
        reverseIndices (reverseIndices g.indices) = g.indices :=
  ⟨by decide, C8_reverse_indices .u32 1 ⟨2, 2⟩ ⟨4, 2⟩ (by decide) (by decide) ⟨0, 0⟩ 0 [] []
    []⟩

/-! ## The camera -/

theorem roundHalfEven_le_int (x : ℚ) (N : Int) (h : x ≤ (N : ℚ)) : roundHalfEven x ≤ N := by
  have h1 := Int.floor_le x
  have hf : ⌊x⌋ ≤ N := by
    have : ((⌊x⌋ : Int) : ℚ) ≤ (N : ℚ) := le_trans h1 h
    exact_mod_cast this
  have hstep : 1 / 2 ≤ x - (⌊x⌋ : ℚ) → ⌊x⌋ + 1 ≤ N := by
    intro hc
    have : ((⌊x⌋ : Int) : ℚ) < (N : ℚ) := by linarith
    have : ⌊x⌋ < N := by exact_mod_cast this
    omega
  unfold roundHalfEven
  simp only []
  split_ifs with c1 c2 c3
  · exact hf
  · exact hstep (le_of_lt c2)
  · exact hf
  · exact hstep (not_lt.mp c1)

theorem roundF32_nonneg (q : ℚ) (h : 0 ≤ q) : 0 ≤ roundF32 q := by
  by_cases hq : q = 0
  · rw [hq]; decide!
  · exact (roundF32_spec q hq).2.1 h

theorem roundF32_le_two_pow (q : ℚ) (k : ℕ) (hk : k ≤ 23) (h0 : 0 ≤ q) (h : q ≤ 2 ^ k) :
    roundF32 q ≤ 2 ^ k := by
  by_cases hq : q = 0
  · rw [hq]
    have : roundF32 0 = 0 := by decide!
    rw [this]
    positivity
  · have hpos : 0 < q := lt_of_le_of_ne h0 (Ne.symm hq)
    obtain ⟨habs, hnn, _, _, _, _⟩ := roundF32_spec q hq
    rw [abs_of_nonneg (hnn h0), abs_of_pos hpos] at habs
    have he : binaryExponent q ≤ k := by
      rcases binaryExponent_spec q hpos with hn | hs
      · by_contra hc
        have h1 : ((k : Int) + 1) ≤ binaryExponent q := by omega
        have h2 : (2 : ℚ) ^ ((k : Int) + 1) ≤ 2 ^ binaryExponent q :=
          zpow_le_zpow_right₀ (by norm_num) h1
        have h3 : (2 : ℚ) ^ ((k : Int) + 1) = 2 ^ k * 2 := by
          rw [zpow_add₀ (by norm_num), zpow_natCast, zpow_one]
        have h4 := hn.1
        rw [pow2_eq_zpow] at h4
        have h5 : (0 : ℚ) < 2 ^ k := by positivity
        linarith
      · rw [hs.1]; omega
    obtain ⟨t, ht⟩ := Int.eq_ofNat_of_zero_le (show 0 ≤ (k : Int) + 23 - binaryExponent q by omega)
    have hu : 0 < pow2 (binaryExponent q - 23) := by
      rw [pow2_eq_zpow]; exact zpow_pos (by norm_num) _
    have hN : ((2 ^ t : Int) : ℚ) * pow2 (binaryExponent q - 23) = 2 ^ k := by
      rw [pow2_eq_zpow]
      push_cast
      rw [← zpow_natCast, ← zpow_add₀ (by norm_num), ← ht, ← zpow_natCast]
      congr 1
      ring
    have hdiv : q / pow2 (binaryExponent q - 23) ≤ ((2 ^ t : Int) : ℚ) := by
      rw [div_le_iff₀ hu, hN]; exact h
    have hm := roundHalfEven_le_int _ _ hdiv
    have hm2 : (roundHalfEven (q / pow2 (binaryExponent q - 23)) : ℚ) ≤ ((2 ^ t : Int) : ℚ) := by
      exact_mod_cast hm
    rw [habs, ← hN]
    exact mul_le_mul_of_nonneg_right hm2 (le_of_lt hu)

theorem clamp_mem {α : Type} [LinearOrder α] (v lo hi : α) (h : lo ≤ hi) :
    lo ≤ clamp v lo hi ∧ clamp v lo hi ≤ hi := by
  unfold clamp
  split_ifs with h1 h2
  · exact ⟨le_refl _, h⟩
  · exact ⟨h, le_refl _⟩
  · exact ⟨not_lt.mp h1, not_lt.mp h2⟩

theorem toggle_spin_closed (b : Bool) (s : CamState) (h : CamInvClosed s) :
    CamInvClosed (toggle_spin b s) := by
  unfold toggle_spin
  split_ifs
  · exact h
  · exact h

theorem move_camera_closed (a b : Bool) (xrel yrel : Int) (s : CamState)
    (h : CamInvClosed s) : CamInvClosed (move_camera a b xrel yrel s) := by
  unfold move_camera
  by_cases ha : (!a) = true
  · rw [if_pos ha]; exact h
  · rw [if_neg ha]
    by_cases hb : (!b) = true
    · rw [if_pos hb]; exact h
    · rw [if_neg hb]
      have h1 := Int.floor_le
        (s.cam_angle.add (mouse_sensitivity.mulPoint ⟨yrel, if s.spin then 0 else xrel⟩)).y
      have h2 := Int.lt_floor_add_one
        (s.cam_angle.add (mouse_sensitivity.mulPoint ⟨yrel, if s.spin then 0 else xrel⟩)).y
      refine ⟨clamp_mem _ _ _ (by norm_num), ⟨?_, ?_⟩, h.2.2⟩
      · exact roundF32_nonneg _ (by linarith)
      · have := roundF32_le_two_pow _ 0 (by norm_num) (sub_nonneg.mpr h1)
          (by rw [pow_zero]; linarith)
        rw [pow_zero] at this
        exact this

theorem zoom_camera_closed (a : Bool) (y : Int) (s : CamState) (h : CamInvClosed s) :
    CamInvClosed (zoom_camera a y s) := by
  unfold zoom_camera
  split_ifs
  · exact h
  · exact ⟨h.1, h.2.1, clamp_mem _ _ _ (by norm_num)⟩

theorem spin_tick_closed (s : CamState) (h : CamInvClosed s) : CamInvClosed (spin_tick s) := by
  unfold spin_tick
  obtain ⟨hp, ⟨hy0, hy1⟩, hz⟩ := h
  have hc : 0 ≤ F32.div (roundF32 (16 / 1000)) (roundF32 4) ∧
      F32.div (roundF32 (16 / 1000)) (roundF32 4) ≤ 1 := by decide!
  have hsum0 : 0 ≤ s.cam_angle.y + F32.div (roundF32 (16 / 1000)) (roundF32 4) := by linarith
  have ha0 := roundF32_nonneg _ hsum0
  have ha2 := roundF32_le_two_pow _ 1 (by norm_num) hsum0 (by rw [pow_one]; linarith)
  rw [pow_one] at ha2
  by_cases h1 : s.spin = true
  · rw [if_pos h1]
    refine ⟨hp, ?_, hz⟩
    show 0 ≤ (if F32.add s.cam_angle.y (F32.div (roundF32 (16 / 1000)) (roundF32 4)) ≥ 1
        then F32.sub (F32.add s.cam_angle.y (F32.div (roundF32 (16 / 1000)) (roundF32 4))) 1
        else F32.add s.cam_angle.y (F32.div (roundF32 (16 / 1000)) (roundF32 4))) ∧
      (if F32.add s.cam_angle.y (F32.div (roundF32 (16 / 1000)) (roundF32 4)) ≥ 1
        then F32.sub (F32.add s.cam_angle.y (F32.div (roundF32 (16 / 1000)) (roundF32 4))) 1
        else F32.add s.cam_angle.y (F32.div (roundF32 (16 / 1000)) (roundF32 4))) ≤ 1
    by_cases h2 : F32.add s.cam_angle.y (F32.div (roundF32 (16 / 1000)) (roundF32 4)) ≥ 1
    · rw [if_pos h2]
      have h3 : 0 ≤ F32.add s.cam_angle.y (F32.div (roundF32 (16 / 1000)) (roundF32 4)) - 1 :=
        sub_nonneg.mpr h2
      have h4 := roundF32_le_two_pow _ 0 (by norm_num) h3
        (by rw [pow_zero]; unfold F32.add; linarith)
      rw [pow_zero] at h4
      exact ⟨roundF32_nonneg _ h3, h4⟩
    · rw [if_neg h2]
      exact ⟨ha0, le_of_lt (not_le.mp h2)⟩
  · rw [if_neg h1]
    exact ⟨hp, ⟨hy0, hy1⟩, hz⟩

theorem camStep_closed (s : CamState) (e : CamEvent) (h : CamInvClosed s) :
    CamInvClosed (camStep s e) := by
  cases e with
  | keyDown b => exact toggle_spin_closed b s h
  | mouseMotion a b xrel yrel => exact move_camera_closed a b xrel yrel s h
  | mouseWheel a y => exact zoom_camera_closed a y s h
  | spinTick => exact spin_tick_closed s h

/-- With the yaw range closed at 1 the camera invariant does hold in `float` arithmetic, after
every sequence of transitions from the initial camera. -/
theorem camRun_closed (events : List CamEvent) :
    CamInvClosed (camRun CamState.init events) := by
  have key : ∀ (es : List CamEvent) (s : CamState), CamInvClosed s →
      CamInvClosed (camRun s es) := by
    intro es
    induction es with
    | nil => intro s h; exact h
    | cons e es ih => intro s h; exact ih (camStep s e) (camStep_closed s e h)
  exact key events _ (by decide!)

/-- C9 fails on the code: the yaw leaves `[0, 1)`.  From the initial camera, the space bar
(spinning off) and two drags with `xrel = -391` and `xrel = 91` leave the `float` sum
`cam_angle.y` just below zero, its floor is `-1`, and `cam_angle.y -= floor(cam_angle.y)`
rounds to exactly `1`; the drags `34, 32, 34` do the same.  The camera invariant holds
before and fails after. -/
theorem C9_yaw_reaches_one :
    CamInv CamState.init ∧
      (camRun CamState.init
        [.keyDown true, .mouseMotion true true (-391) 0]).cam_angle.y = 238551 / 1048576 ∧
      (camRun CamState.init
        [.keyDown true, .mouseMotion true true (-391) 0,
          .mouseMotion true true 91 0]).cam_angle.y = 1 ∧
      ¬ CamInv (camRun CamState.init
        [.keyDown true, .mouseMotion true true (-391) 0, .mouseMotion true true 91 0]) ∧
      (camRun CamState.init
        [.keyDown true, .mouseMotion true true 34 0, .mouseMotion true true 32 0,
          .mouseMotion true true 34 0]).cam_angle.y = 1 := by
  decide!

/-! ## `ToInt` -/

/-- C10 fails on the code: `ToInt("9999999999", out)` returns `true` with `out = 1410065407`,
although the string is all digits and its value exceeds `2^31 - 1`; the check `i < _i` misses
the wrapped product because `9999999999 mod 2^32` is not below `999999999`. -/
theorem C10_ToInt_accepts_overflow :
    ToInt "9999999999".toList 7 = (true, 1410065407) ∧
      allDigits "9999999999".toList = true ∧
      decimalValue "9999999999".toList = 9999999999 ∧
      ¬ (decimalValue "9999999999".toList ≤ 2 ^ 31 - 1) := by
  decide

end Slicer
